import Mathlib

/-!
Verification development for the WorkForcePlanner scheduler core
(src/planner/scheduler.py, src/worker/worker.py, src/worker/workforce.py).

The Python code manipulates datetime.date / datetime.datetime values.  We
embed them structurally: a calendar date is a (year, day-of-year) pair with
the Gregorian leap rule, and a datetime adds a rational time-of-day measured
in hours.  Python float hours are modelled as rationals.  The integer
day-index idx (days counted from a fixed origin) is order-isomorphic to
calendar order on valid dates and drives all comparison reasoning; the
rational key of a datetime (24 * idx + time-of-day) likewise.
-/

namespace WFP

/-- Gregorian leap-year test, as Python's calendar module defines it. -/
def isLeap (y : ℤ) : Bool := y % 4 == 0 && (y % 100 != 0 || y % 400 == 0)

/-- Number of days in a Gregorian year. -/
def daysInYear (y : ℤ) : ℤ := if isLeap y then 366 else 365

/-- A calendar date, represented as a year plus a (1-based) day-of-year.
This makes Python's timetuple().tm_yday a field read. -/
structure Date where
  year : ℤ
  doy : ℤ
deriving DecidableEq, Repr

/-- A date is valid when the day-of-year lies within the year. -/
def Date.Valid (d : Date) : Prop := 1 ≤ d.doy ∧ d.doy ≤ daysInYear d.year

instance (d : Date) : Decidable d.Valid := by unfold Date.Valid; infer_instance

/-- Count of days before Jan 1 of the given year, relative to a fixed
origin, using the Gregorian leap rule (365 per year plus the leap years
strictly before the given year in the floor-division count). -/
def daysBeforeYear (y : ℤ) : ℤ :=
  365 * y + (y - 1).fdiv 4 - (y - 1).fdiv 100 + (y - 1).fdiv 400

/-- Absolute day index of a date; on valid dates this is order-isomorphic
to calendar order, and successive calendar days have successive indices. -/
def Date.idx (d : Date) : ℤ := daysBeforeYear d.year + d.doy

/-- The next calendar day (Python date + timedelta(days=1)). -/
def Date.next (d : Date) : Date :=
  if d.doy + 1 > daysInYear d.year then ⟨d.year + 1, 1⟩ else ⟨d.year, d.doy + 1⟩

/-- A point in time: a calendar date plus a time-of-day in hours. -/
structure DateTime where
  date : Date
  tod : ℚ
deriving DecidableEq, Repr

/-- A datetime is valid when its date is valid and its time-of-day lies in
the half-open interval from 0 to 24 hours. -/
def DateTime.Valid (t : DateTime) : Prop :=
  t.date.Valid ∧ 0 ≤ t.tod ∧ t.tod < 24

instance (t : DateTime) : Decidable t.Valid := by unfold DateTime.Valid; infer_instance

/-- Rational chronological key of a datetime (hours from the origin).  On
valid datetimes this is order-isomorphic to Python datetime comparison. -/
def DateTime.key (t : DateTime) : ℚ := 24 * (t.date.idx : ℚ) + t.tod

/-- Python max(a, b) on two datetimes: b when b is strictly later, else a. -/
def DateTime.pymax (a b : DateTime) : DateTime := if a.key < b.key then b else a

/-- Advance a datetime by a nonnegative number of hours
(Python datetime + timedelta(hours=q)), normalizing across midnights. -/
def DateTime.addHours (t : DateTime) (q : ℚ) : DateTime :=
  ⟨Date.next^[(⌊(t.tod + q) / 24⌋).toNat] t.date,
   t.tod + q - 24 * ((⌊(t.tod + q) / 24⌋).toNat : ℚ)⟩

/-- Minute field of a datetime, as Python dt.minute. -/
def DateTime.minute (t : DateTime) : ℤ := ⌊t.tod * 60⌋ % 60

/-- Second field of a datetime, as Python dt.second. -/
def DateTime.second (t : DateTime) : ℤ := ⌊t.tod * 3600⌋ % 60

/-- A datetime lies on a whole hour when its key is an integer. -/
def DateTime.Whole (t : DateTime) : Prop := (⌊t.key⌋ : ℚ) = t.key

instance (t : DateTime) : Decidable t.Whole := by unfold DateTime.Whole; infer_instance

/- ### Basic calendar lemmas -/

theorem daysInYear_pos (y : ℤ) : 365 ≤ daysInYear y := by
  unfold daysInYear; split <;> omega

theorem daysBeforeYear_succ (y : ℤ) :
    daysBeforeYear (y + 1) = daysBeforeYear y + daysInYear y := by
  have h4 : ∀ a : ℤ, a.fdiv 4 = a / 4 := fun a => Int.fdiv_eq_ediv a (by norm_num)
  have h100 : ∀ a : ℤ, a.fdiv 100 = a / 100 := fun a => Int.fdiv_eq_ediv a (by norm_num)
  have h400 : ∀ a : ℤ, a.fdiv 400 = a / 400 := fun a => Int.fdiv_eq_ediv a (by norm_num)
  unfold daysBeforeYear daysInYear isLeap
  simp only [h4, h100, h400, Bool.and_eq_true, beq_iff_eq, bne_iff_ne, Bool.or_eq_true,
    decide_eq_true_eq]
  have e : y + 1 - 1 = y := by ring
  rw [e]
  split <;> omega

theorem Date.next_valid {d : Date} (h : d.Valid) : d.next.Valid := by
  unfold Date.next Date.Valid at *
  split
  · constructor
    · simp
    · simp only
      have := daysInYear_pos (d.year + 1); omega
  · constructor <;> simp <;> omega

theorem Date.idx_next {d : Date} (h : d.Valid) : d.next.idx = d.idx + 1 := by
  unfold Date.next Date.idx Date.Valid at *
  split
  · simp only
    rw [daysBeforeYear_succ]
    omega
  · simp only
    omega

theorem Date.idx_iterate_next {d : Date} (h : d.Valid) (n : ℕ) :
    (Date.next^[n] d).Valid ∧ (Date.next^[n] d).idx = d.idx + n := by
  induction n with
  | zero => simpa using h
  | succ k ih =>
    rw [Function.iterate_succ_apply']
    refine ⟨Date.next_valid ih.1, ?_⟩
    rw [Date.idx_next ih.1, ih.2]
    push_cast
    ring

theorem daysBeforeYear_mono {y y' : ℤ} (hlt : y < y') :
    daysBeforeYear y + daysInYear y ≤ daysBeforeYear y' := by
  have key : ∀ k : ℕ, daysBeforeYear y + daysInYear y ≤ daysBeforeYear (y + 1 + k) := by
    intro k
    induction k with
    | zero => simp [daysBeforeYear_succ]
    | succ m ih =>
      have : y + 1 + (m + 1 : ℕ) = (y + 1 + m) + 1 := by push_cast; ring
      rw [this, daysBeforeYear_succ]
      have := daysInYear_pos (y + 1 + m)
      omega
  have hk : ∃ k : ℕ, y' = y + 1 + k := ⟨(y' - y - 1).toNat, by omega⟩
  obtain ⟨k, hk⟩ := hk
  rw [hk]; exact key k

/-- On valid dates, the day index determines the date. -/
theorem Date.idx_inj {a b : Date} (ha : a.Valid) (hb : b.Valid) (h : a.idx = b.idx) :
    a = b := by
  unfold Date.idx Date.Valid at *
  rcases lt_trichotomy a.year b.year with hy | hy | hy
  · exfalso
    have h1 := daysBeforeYear_mono hy
    have := daysInYear_pos b.year
    omega
  · have hd : a.doy = b.doy := by rw [hy] at h; omega
    cases a; cases b; simp_all
  · exfalso
    have h1 := daysBeforeYear_mono hy
    have := daysInYear_pos a.year
    omega

/- ### DateTime lemmas -/

theorem DateTime.addHours_valid_key {t : DateTime} (ht : t.Valid) {q : ℚ} (hq : 0 ≤ q) :
    (t.addHours q).Valid ∧ (t.addHours q).key = t.key + q := by
  obtain ⟨hd, h0, h24⟩ := ht
  have hs0 : 0 ≤ t.tod + q := add_nonneg h0 hq
  have hfl0 : 0 ≤ ⌊(t.tod + q) / 24⌋ := Int.floor_nonneg.mpr (by positivity)
  have hcast : (((⌊(t.tod + q) / 24⌋).toNat : ℤ) : ℚ) = ((⌊(t.tod + q) / 24⌋ : ℤ) : ℚ) :=
    congrArg _ (Int.toNat_of_nonneg hfl0)
  have h1 : ((⌊(t.tod + q) / 24⌋ : ℤ) : ℚ) ≤ (t.tod + q) / 24 := Int.floor_le _
  have h2 : (t.tod + q) / 24 < ⌊(t.tod + q) / 24⌋ + 1 := Int.lt_floor_add_one _
  have hit := Date.idx_iterate_next hd (⌊(t.tod + q) / 24⌋).toNat
  unfold DateTime.addHours DateTime.key
  refine ⟨⟨hit.1, ?_, ?_⟩, ?_⟩
  · simp only
    push_cast at hcast ⊢
    rw [hcast]
    linarith
  · simp only
    push_cast at hcast ⊢
    rw [hcast]
    linarith
  · simp only
    rw [hit.2]
    push_cast at hcast ⊢
    rw [hcast]
    ring

theorem DateTime.addHours_valid {t : DateTime} (ht : t.Valid) {q : ℚ} (hq : 0 ≤ q) :
    (t.addHours q).Valid := (DateTime.addHours_valid_key ht hq).1

theorem DateTime.addHours_key {t : DateTime} (ht : t.Valid) {q : ℚ} (hq : 0 ≤ q) :
    (t.addHours q).key = t.key + q := (DateTime.addHours_valid_key ht hq).2

theorem DateTime.pymax_key (a b : DateTime) : (a.pymax b).key = max a.key b.key := by
  unfold DateTime.pymax
  split <;> rename_i h
  · rw [max_eq_right (le_of_lt h)]
  · rw [max_eq_left (le_of_not_lt h)]

theorem DateTime.pymax_eq_or (a b : DateTime) : a.pymax b = a ∨ a.pymax b = b := by
  unfold DateTime.pymax; split
  · right; rfl
  · left; rfl

theorem DateTime.pymax_valid {a b : DateTime} (ha : a.Valid) (hb : b.Valid) :
    (a.pymax b).Valid := by
  rcases DateTime.pymax_eq_or a b with h | h <;> rw [h] <;> assumption

/-- The floor of the key splits into the day part and the floor of the
time-of-day. -/
theorem DateTime.floor_key (t : DateTime) :
    ⌊t.key⌋ = 24 * t.date.idx + ⌊t.tod⌋ := by
  unfold DateTime.key
  rw [show (24 : ℚ) * (t.date.idx : ℚ) = ((24 * t.date.idx : ℤ) : ℚ) by push_cast; ring]
  rw [Int.floor_int_add]

/- ### round_to_nearest_hour (src/planner/scheduler.py lines 141-147) -/

/-- Embedding of round_to_nearest_hour: the replace call zeroes minute,
second and microsecond (here: truncates the time-of-day to the hour), and
one hour is added exactly when minute is at least 30, or minute is 29 and
second is at least 30. -/
def round_to_nearest_hour (t : DateTime) : DateTime :=
  if 30 ≤ t.minute ∨ (t.minute = 29 ∧ 30 ≤ t.second) then
    DateTime.addHours ⟨t.date, (⌊t.tod⌋ : ℚ)⟩ 1
  else
    ⟨t.date, (⌊t.tod⌋ : ℚ)⟩

theorem DateTime.truncHour_valid {t : DateTime} (ht : t.Valid) :
    DateTime.Valid ⟨t.date, (⌊t.tod⌋ : ℚ)⟩ := by
  obtain ⟨hd, h0, h24⟩ := ht
  refine ⟨hd, ?_, ?_⟩
  · simp only
    exact_mod_cast Int.floor_nonneg.mpr h0
  · simp only
    calc (⌊t.tod⌋ : ℚ) ≤ t.tod := Int.floor_le _
      _ < 24 := h24

/-- If the fractional hour part is at least one half, the minute field is at
least 30. -/
theorem DateTime.minute_ge_of_half {t : DateTime} (ht : t.Valid)
    (h : (1 : ℚ) / 2 ≤ t.tod - ⌊t.tod⌋) : 30 ≤ t.minute := by
  obtain ⟨hd, h0, h24⟩ := ht
  unfold DateTime.minute
  have hsplit : t.tod * 60 = (t.tod - ⌊t.tod⌋) * 60 + ((60 * ⌊t.tod⌋ : ℤ) : ℚ) := by
    push_cast; ring
  rw [hsplit, Int.floor_add_int]
  have hf1 : t.tod - ⌊t.tod⌋ < 1 := by
    have := Int.lt_floor_add_one t.tod; linarith
  have hlow : 30 ≤ ⌊(t.tod - ⌊t.tod⌋) * 60⌋ := by
    rw [Int.le_floor]; push_cast; linarith
  have hhigh : ⌊(t.tod - ⌊t.tod⌋) * 60⌋ < 60 := by
    rw [Int.floor_lt]; push_cast; linarith
  omega

/-- The key of a datetime truncated to the hour is the floor of its key. -/
theorem DateTime.key_trunc (t : DateTime) :
    (DateTime.mk t.date ((⌊t.tod⌋ : ℚ))).key = (⌊t.key⌋ : ℚ) := by
  show 24 * (t.date.idx : ℚ) + ((⌊t.tod⌋ : ℤ) : ℚ) = (⌊t.key⌋ : ℚ)
  rw [DateTime.floor_key]
  push_cast
  ring

theorem round_valid_whole {t : DateTime} (ht : t.Valid) :
    (round_to_nearest_hour t).Valid ∧ (round_to_nearest_hour t).Whole := by
  have hbase := DateTime.truncHour_valid ht
  have hkb := DateTime.key_trunc t
  unfold round_to_nearest_hour
  split
  · have h := DateTime.addHours_valid_key hbase (by norm_num : (0:ℚ) ≤ 1)
    refine ⟨h.1, ?_⟩
    unfold DateTime.Whole
    rw [h.2, hkb]
    rw [show (⌊t.key⌋ : ℚ) + 1 = ((⌊t.key⌋ + 1 : ℤ) : ℚ) by push_cast; ring]
    rw [Int.floor_intCast]
  · refine ⟨hbase, ?_⟩
    unfold DateTime.Whole
    rw [hkb, Int.floor_intCast]

/-- Rounding never moves the cursor below the whole hour it sits in. -/
theorem round_key_ge_floor {t : DateTime} (ht : t.Valid) :
    (⌊t.key⌋ : ℚ) ≤ (round_to_nearest_hour t).key := by
  have hbase := DateTime.truncHour_valid ht
  have hkb := DateTime.key_trunc t
  unfold round_to_nearest_hour
  split
  · rw [DateTime.addHours_key hbase (by norm_num : (0:ℚ) ≤ 1), hkb]
    linarith
  · rw [hkb]

/-- Rounding moves the cursor down by strictly less than half an hour
(and otherwise moves it up). -/
theorem round_key_gt {t : DateTime} (ht : t.Valid) :
    t.key - 1 / 2 < (round_to_nearest_hour t).key := by
  have hbase := DateTime.truncHour_valid ht
  have hkb := DateTime.key_trunc t
  have hfle : (⌊t.key⌋ : ℚ) ≤ t.key := Int.floor_le _
  have hflt : t.key < (⌊t.key⌋ : ℚ) + 1 := Int.lt_floor_add_one _
  unfold round_to_nearest_hour
  split
  · rw [DateTime.addHours_key hbase (by norm_num : (0:ℚ) ≤ 1), hkb]
    linarith
  · rename_i hcond
    rw [hkb]
    by_contra hcontra
    push_neg at hcontra
    have hhalf : (1 : ℚ) / 2 ≤ t.tod - ⌊t.tod⌋ := by
      have hfk : (⌊t.key⌋ : ℚ) = 24 * (t.date.idx : ℚ) + (⌊t.tod⌋ : ℚ) := by
        rw [DateTime.floor_key]; push_cast; ring
      have hkey : t.key = 24 * (t.date.idx : ℚ) + t.tod := rfl
      rw [hfk, hkey] at hcontra
      linarith
    exact hcond (Or.inl (DateTime.minute_ge_of_half ht hhalf))

/-- Rounding keeps the cursor at or above any whole hour it was at or
above; in particular it is monotone with respect to whole-hour lower
bounds. -/
theorem round_key_ge_whole {t w : DateTime} (ht : t.Valid) (hw : w.Whole)
    (hle : w.key ≤ t.key) : w.key ≤ (round_to_nearest_hour t).key := by
  have h1 := round_key_ge_floor ht
  have h2 : w.key ≤ (⌊t.key⌋ : ℚ) := by
    unfold DateTime.Whole at hw
    rw [← hw]
    have : (⌊w.key⌋ : ℚ) ≤ t.key := by rw [hw]; exact hle
    exact_mod_cast Int.le_floor.mpr this
  linarith

/-- A whole-hour datetime is not moved below itself by rounding. -/
theorem round_key_ge_self_of_whole {t : DateTime} (ht : t.Valid) (hw : t.Whole) :
    t.key ≤ (round_to_nearest_hour t).key :=
  round_key_ge_whole ht hw le_rfl

/- ### Worker model (src/worker/worker.py) -/

/-- Weekday names in the order used by the day-index modulo seven.  Python
uses strftime, keyed to the real-world Gregorian anchoring; here the anchor
is fixed by the day index, which is all that matters for the claims (the
scheduler treats the weekday set abstractly). -/
def dayNames : List String :=
  ["Monday", "Tuesday", "Wednesday", "Thursday", "Friday", "Saturday", "Sunday"]

/-- Name of the weekday of a date (Python date.strftime with format A). -/
def Date.dayName (d : Date) : String := dayNames.getD (d.idx.emod 7).toNat ""

/-- A work period: a date range with fixed daily work hours and a set of
active weekday names.  Its model validator requires start before end. -/
structure WorkPeriod where
  start_date : DateTime
  end_date : DateTime
  work_hours : ℚ
  work_days : List String
deriving DecidableEq, Repr

/-- Embedding of WorkPeriod.get_work_hours_for_date: the period's hours if
the date lies in the inclusive date range and its weekday name is listed,
else 0. -/
def WorkPeriod.get_work_hours_for_date (p : WorkPeriod) (d : Date) : ℚ :=
  if p.start_date.date.idx ≤ d.idx ∧ d.idx ≤ p.end_date.date.idx then
    if p.work_days.contains d.dayName then p.work_hours else 0
  else 0

structure Worker where
  name : String
  work_periods : List WorkPeriod
  payment : Option ℚ
deriving DecidableEq, Repr

/-- Helper for Worker.get_daily_work_hours: scan the period list and
return the first period value that is strictly positive. -/
def firstPositiveHours : List WorkPeriod → Date → ℚ
  | [], _ => 0
  | p :: ps, d =>
    if 0 < p.get_work_hours_for_date d then p.get_work_hours_for_date d
    else firstPositiveHours ps d

/-- Embedding of Worker.get_daily_work_hours: the loop returns the hours of
the first period whose get_work_hours_for_date value is positive, else 0. -/
def Worker.get_daily_work_hours (w : Worker) (d : Date) : ℚ :=
  firstPositiveHours w.work_periods d

/-- Embedding of Worker.remove_work_period: pops the indexed element only
when the (possibly negative) index is in range, otherwise does nothing. -/
def Worker.remove_work_period (w : Worker) (i : ℤ) : Worker :=
  if 0 ≤ i ∧ i < (w.work_periods.length : ℤ) then
    { w with work_periods := w.work_periods.eraseIdx i.toNat }
  else w

/- ### Workforce model (src/worker/workforce.py) -/

structure Workforce where
  workers : List Worker
deriving DecidableEq, Repr

/-- Embedding of Workforce.add_worker: raises when a worker of the same
name is already present, otherwise appends. -/
def Workforce.add_worker (wf : Workforce) (w : Worker) : Except String Workforce :=
  if (wf.workers.map Worker.name).contains w.name then
    .error "worker already exists"
  else
    .ok ⟨wf.workers ++ [w]⟩

/-- Replace the first worker carrying the given name; none when absent. -/
def replaceFirstByName (name : String) (w : Worker) : List Worker → Option (List Worker)
  | [] => none
  | x :: xs =>
    if x.name = name then some (w :: xs)
    else (replaceFirstByName name w xs).map (x :: ·)

/-- Embedding of Workforce.update_worker: replaces the first worker with
the given name in place, raising when the name is absent.  The replacement
worker's own name is not checked. -/
def Workforce.update_worker (wf : Workforce) (name : String) (w : Worker) :
    Except String Workforce :=
  match replaceFirstByName name w wf.workers with
  | some l => .ok ⟨l⟩
  | none => .error "worker not found"

/-- Remove the first worker carrying the given name; none when absent. -/
def removeFirstByName (name : String) : List Worker → Option (List Worker)
  | [] => none
  | x :: xs =>
    if x.name = name then some xs
    else (removeFirstByName name xs).map (x :: ·)

/-- Embedding of Workforce.remove_worker: removes the first worker with the
given name, raising when the name is absent. -/
def Workforce.remove_worker (wf : Workforce) (name : String) : Except String Workforce :=
  match removeFirstByName name wf.workers with
  | some l => .ok ⟨l⟩
  | none => .error "worker not found"

/-- Embedding of Workforce.get_daily_work_hours: total hours over all
workers for the date. -/
def Workforce.get_daily_work_hours (wf : Workforce) (d : Date) : ℚ :=
  (wf.workers.map (fun w => w.get_daily_work_hours d)).sum

/-- Python max over a nonempty list (first element as the seed). -/
def pyListMax : List ℚ → ℚ
  | [] => 0
  | h :: t => t.foldl max h

/-- Embedding of Workforce.get_daily_worker_count: 0 when no worker has
positive hours, otherwise the sum of each active worker's hours divided by
the maximum active hours of the day. -/
def Workforce.get_daily_worker_count (wf : Workforce) (d : Date) : ℚ :=
  let hs := (wf.workers.map (fun w => w.get_daily_work_hours d)).filter (fun h => 0 < h)
  if hs.isEmpty then 0
  else (hs.map (fun h => h / pyListMax hs)).sum

/- ### Worker and workforce lemmas -/

theorem firstPositiveHours_nonneg (ps : List WorkPeriod) (d : Date) :
    0 ≤ firstPositiveHours ps d := by
  induction ps with
  | nil => simp [firstPositiveHours]
  | cons p ps ih =>
    unfold firstPositiveHours
    split <;> [linarith; exact ih]

theorem Worker.get_daily_work_hours_nonneg (w : Worker) (d : Date) :
    0 ≤ w.get_daily_work_hours d :=
  firstPositiveHours_nonneg w.work_periods d

theorem Workforce.daily_hours_nonneg (wf : Workforce) (d : Date) :
    0 ≤ wf.get_daily_work_hours d := by
  unfold Workforce.get_daily_work_hours
  apply List.sum_nonneg
  intro x hx
  simp only [List.mem_map] at hx
  obtain ⟨w, _, rfl⟩ := hx
  exact Worker.get_daily_work_hours_nonneg w d

theorem foldl_max_le {α : Type} [LinearOrder α] (l : List α) (a : α) :
    a ≤ l.foldl max a := by
  induction l generalizing a with
  | nil => simp
  | cons x xs ih =>
    simp only [List.foldl_cons]
    exact le_trans (le_max_left a x) (ih (max a x))

theorem foldl_max_mem_le {α : Type} [LinearOrder α] (l : List α) (a x : α) (hx : x ∈ l) :
    x ≤ l.foldl max a := by
  induction l generalizing a with
  | nil => simp at hx
  | cons y ys ih =>
    simp only [List.foldl_cons]
    rcases List.mem_cons.mp hx with rfl | h
    · exact le_trans (le_max_right a x) (foldl_max_le ys (max a x))
    · exact ih (max a y) h

theorem foldl_max_mem {α : Type} [LinearOrder α] (l : List α) (a : α) :
    l.foldl max a = a ∨ l.foldl max a ∈ l := by
  induction l generalizing a with
  | nil => left; rfl
  | cons x xs ih =>
    simp only [List.foldl_cons]
    rcases ih (max a x) with h | h
    · rcases max_cases a x with ⟨he, _⟩ | ⟨he, _⟩
      · left; rw [h, he]
      · right; rw [h, he]; exact List.mem_cons_self x xs
    · right; exact List.mem_cons_of_mem x h

theorem pyListMax_ge {l : List ℚ} {x : ℚ} (hx : x ∈ l) : x ≤ pyListMax l := by
  cases l with
  | nil => simp at hx
  | cons h t =>
    simp only [pyListMax]
    rcases List.mem_cons.mp hx with rfl | hmem
    · exact foldl_max_le t x
    · exact foldl_max_mem_le t h x hmem

theorem pyListMax_mem {l : List ℚ} (hne : l ≠ []) : pyListMax l ∈ l := by
  cases l with
  | nil => exact absurd rfl hne
  | cons h t =>
    simp only [pyListMax]
    rcases foldl_max_mem t h with he | hm
    · rw [he]; exact List.mem_cons_self h t
    · exact List.mem_cons_of_mem h hm

/-- The fractional worker count is at least 1 whenever someone is active. -/
theorem Workforce.count_ge_one {wf : Workforce} {d : Date}
    (h : wf.get_daily_worker_count d ≠ 0) : 1 ≤ wf.get_daily_worker_count d := by
  unfold Workforce.get_daily_worker_count at *
  set hs := (wf.workers.map (fun w => w.get_daily_work_hours d)).filter (fun h => 0 < h) with hhs
  by_cases he : hs.isEmpty
  · simp [he] at h
  · simp only [he, if_false] at h ⊢
    have hne : hs ≠ [] := by
      intro hc; rw [hc] at he; simp at he
    have hmem := pyListMax_mem hne
    have hpos : ∀ x ∈ hs, 0 < x := by
      intro x hx
      have := List.of_mem_filter hx
      simpa using this
    have hmpos : 0 < pyListMax hs := hpos _ hmem
    have : pyListMax hs / pyListMax hs ∈ hs.map (fun h => h / pyListMax hs) :=
      List.mem_map_of_mem _ hmem
    have hterm : (1 : ℚ) ∈ hs.map (fun h => h / pyListMax hs) := by
      rwa [div_self (ne_of_gt hmpos)] at this
    have hnn : ∀ x ∈ hs.map (fun h => h / pyListMax hs), 0 ≤ x := by
      intro x hx
      simp only [List.mem_map] at hx
      obtain ⟨y, hy, rfl⟩ := hx
      exact le_of_lt (div_pos (hpos y hy) hmpos)
    exact List.single_le_sum hnn 1 hterm

/-- The worker count is nonnegative. -/
theorem Workforce.count_nonneg (wf : Workforce) (d : Date) :
    0 ≤ wf.get_daily_worker_count d := by
  by_cases h : wf.get_daily_worker_count d = 0
  · rw [h]
  · linarith [Workforce.count_ge_one h]

/- ### Field scheduler (src/planner/scheduler.py) -/

/-- A row of the field table.  The column-name bindings of the Python
function are configuration, so the row is embedded with its four
algorithmically relevant values directly. -/
structure FieldRow where
  field_name : String
  total_hours : ℚ
  harvest_round : String
  group : String
deriving DecidableEq, Repr

/-- An output record of the scheduler (one appended dict). -/
structure ScheduleEntry where
  field : String
  start_date : DateTime
  end_date : DateTime
  total_hours : ℚ
  harvest_round : String
  group : String
deriving DecidableEq, Repr

/-- The keys of every record dict appended by the scheduler, in order. -/
def entryCols : List String :=
  ["Field", "start_date", "end_date", "total_hours", "Harvest round", "Variety Group"]

/-- A pandas DataFrame, abstracted to its column labels and rows. -/
structure DataFrame where
  cols : List String
  records : List ScheduleEntry
deriving DecidableEq, Repr

/-- Model of pandas DataFrame construction from a list of record dicts:
the columns are the union of the records' keys in order of first
appearance, so an empty record list yields a frame with no columns, and
any nonempty list of scheduler records yields the six fixed keys. -/
def dataFrameOfRecords (rs : List ScheduleEntry) : DataFrame :=
  ⟨if rs.isEmpty then [] else entryCols, rs⟩

/-- A Python value that is either a bare date or a datetime.  Note that in
Python a datetime is an instance of date as well. -/
inductive PyDateVal where
  | pureDate (d : Date)
  | dateTime (t : DateTime)
deriving DecidableEq, Repr

/-- The start_date argument: a single date/datetime, or a dict keyed by
variety-group name. -/
inductive StartArg where
  | single (v : PyDateVal)
  | byGroup (m : List (String × PyDateVal))
deriving DecidableEq, Repr

/-- Embedding of scheduler lines 50-62: normalization of start_date into a
per-group dict of datetimes.  In the single-value branch the code tests
isinstance(start_date, date), which is also true of datetimes, and applies
datetime.combine(value, time(hour=8)); combine ignores the time component
of a datetime argument, so a single datetime is also truncated to 08:00.
In the dict branch only bare dates (not datetimes) are combined with
08:00. -/
def normStartDict (sd : StartArg) (uniqueGroups : List String) :
    List (String × DateTime) :=
  match sd with
  | .single v =>
    let dtv : DateTime :=
      match v with
      | .pureDate d => ⟨d, 8⟩
      | .dateTime t => ⟨t.date, 8⟩
    uniqueGroups.map (fun g => (g, dtv))
  | .byGroup m =>
    m.map (fun gv =>
      (gv.1, match gv.2 with
             | .pureDate d => (⟨d, 8⟩ : DateTime)
             | .dateTime t => t))

/-- First-appearance-ordered distinct values (pandas Series.unique). -/
def uniqueInOrder (l : List String) : List String :=
  l.foldl (fun acc x => if acc.contains x then acc else acc ++ [x]) []

/-- Byte-wise lexicographic comparison of character lists. -/
def charListLe : List Char → List Char → Bool
  | [], _ => true
  | _ :: _, [] => false
  | a :: as, b :: bs =>
    if a.toNat < b.toNat then true
    else if b.toNat < a.toNat then false
    else charListLe as bs

/-- String comparison used to order the groupby keys. -/
def strLeB (a b : String) : Bool := charListLe a.data b.data

def insertSorted (x : String) : List String → List String
  | [] => [x]
  | y :: ys => if strLeB x y then x :: y :: ys else y :: insertSorted x ys

/-- Insertion sort on strings; pandas groupby iterates groups in sorted
key order. -/
def sortStrings : List String → List String
  | [] => []
  | x :: xs => insertSorted x (sortStrings xs)

/-- State of the inner while loop of the scheduler. -/
structure LoopSt where
  cursor : DateTime
  curDate : Date
  cap : ℚ
  count : ℚ
  rem : ℚ
deriving DecidableEq, Repr

/-- Embedding of scheduler lines 98-101: when the cursor has moved to a new
day, resample the daily capacity and worker count. -/
def syncState (wf : Workforce) (s : LoopSt) : LoopSt :=
  if s.cursor.date ≠ s.curDate then
    { s with curDate := s.cursor.date,
             cap := wf.get_daily_work_hours s.cursor.date,
             count := wf.get_daily_worker_count s.cursor.date }
  else s

inductive LoopRes where
  | done (s : LoopSt)
  | abort
deriving DecidableEq, Repr

/-- Embedding of the while loop of scheduler lines 96-120.  The fuel
argument only bounds the number of iterations of this loop, which is the
only non-structural loop of the function; none signals exhausted fuel.
Each iteration either resamples and skips to the next day at the group's
nominal start time (aborting the whole run when the day-of-year reaches
365), or consumes min(remaining, capacity) hours, advancing the cursor by
that amount divided by the worker count. -/
def fieldLoop (wf : Workforce) (startTod : ℚ) : ℕ → LoopSt → Option LoopRes
  | 0, _ => none
  | fuel + 1, s =>
    if 0 < s.rem then
      if (syncState wf s).cap ≤ 0 ∨ (syncState wf s).count = 0 then
        if (syncState wf s).curDate.next.doy = 365 then some .abort
        else
          fieldLoop wf startTod fuel
            { syncState wf s with cursor := ⟨(syncState wf s).curDate.next, startTod⟩ }
      else
        fieldLoop wf startTod fuel
          { syncState wf s with
            cursor := (syncState wf s).cursor.addHours
              (min (syncState wf s).rem (syncState wf s).cap / (syncState wf s).count),
            rem := (syncState wf s).rem - min (syncState wf s).rem (syncState wf s).cap,
            cap := (syncState wf s).cap - min (syncState wf s).rem (syncState wf s).cap }
    else some (.done s)

/-- Per-group running state between fields: the cursor plus the sampled
capacity state carried across the field loop. -/
structure GroupSt where
  cursor : DateTime
  curDate : Date
  cap : ℚ
  count : ℚ
deriving DecidableEq, Repr

/-- Group state at a group's effective start (scheduler lines 84-86). -/
def initGroupSt (wf : Workforce) (c0 : DateTime) : GroupSt :=
  ⟨c0, c0.date, wf.get_daily_work_hours c0.date, wf.get_daily_worker_count c0.date⟩

/-- Result of a partial run: ok, or an early abort carrying the entries
emitted before the abort. -/
inductive StepRes (α : Type) where
  | ok (a : α)
  | abort (soFar : List ScheduleEntry)
deriving DecidableEq, Repr

/-- Embedding of one iteration of the field loop of scheduler lines
89-134: run the while loop for the row's hours, round the final cursor to
the nearest hour to obtain the entry's end date, and emit the entry; the
rounded end becomes the next field's start. -/
def processField (wf : Workforce) (startTod : ℚ) (fuel : ℕ) (g : GroupSt) (row : FieldRow) :
    Option (StepRes (GroupSt × ScheduleEntry)) :=
  match fieldLoop wf startTod fuel ⟨g.cursor, g.curDate, g.cap, g.count, row.total_hours⟩ with
  | none => none
  | some .abort => some (.abort [])
  | some (.done s) =>
    some (.ok
      ({ cursor := round_to_nearest_hour s.cursor, curDate := s.curDate,
         cap := s.cap, count := s.count },
       { field := row.field_name, start_date := g.cursor,
         end_date := round_to_nearest_hour s.cursor,
         total_hours := row.total_hours, harvest_round := row.harvest_round,
         group := row.group }))

/-- Fold of processField over the rows of one group, in table order. -/
def processFields (wf : Workforce) (startTod : ℚ) (fuel : ℕ) :
    GroupSt → List FieldRow → Option (StepRes (GroupSt × List ScheduleEntry))
  | g, [] => some (.ok (g, []))
  | g, r :: rs =>
    match processField wf startTod fuel g r with
    | none => none
    | some (.abort _) => some (.abort [])
    | some (.ok (g', e)) =>
      match processFields wf startTod fuel g' rs with
      | none => none
      | some (.abort pe) => some (.abort (e :: pe))
      | some (.ok (g2, es)) => some (.ok (g2, e :: es))

/-- The effective start instant of a group (scheduler lines 79-82): the
nominal start when no group ran yet, otherwise the Python max of the
nominal start and the global cursor. -/
def effectiveStart (gsd : DateTime) : Option DateTime → DateTime
  | none => gsd
  | some gl => gsd.pymax gl

/-- Embedding of the group loop of scheduler lines 71-137: groups missing
from the start-date dict are skipped; otherwise the group starts at its
effective start, and the global cursor becomes the group's final cursor
afterwards. -/
def processGroups (wf : Workforce) (fuel : ℕ) (startDict : List (String × DateTime)) :
    Option DateTime → List (String × List FieldRow) → Option (StepRes (List ScheduleEntry))
  | _, [] => some (.ok [])
  | glob, (gname, rows) :: rest =>
    match startDict.lookup gname with
    | none => processGroups wf fuel startDict glob rest
    | some gsd =>
      match processFields wf gsd.tod fuel (initGroupSt wf (effectiveStart gsd glob)) rows with
      | none => none
      | some (.abort pe) => some (.abort pe)
      | some (.ok (g', es)) =>
        match processGroups wf fuel startDict (some g'.cursor) rest with
        | none => none
        | some (.abort pe) => some (.abort (es ++ pe))
        | some (.ok es') => some (.ok (es ++ es'))

/-- Result of a scheduling run: the output frame, and whether the run was
aborted early by the day-of-year 365 safety bound (with a warning). -/
structure ScheduleResult where
  frame : DataFrame
  aborted : Bool
deriving DecidableEq, Repr

/-- Embedding of schedule_field_work.  The start_date argument is
normalized into a per-group dict, the table is grouped by the variety
group column (sorted keys, stable row order within a group), the groups
are processed sequentially against the shared global cursor, and the
collected records form the output frame.  none signals exhausted fuel
only. -/
def schedule_field_work (fuel : ℕ) (field_table : List FieldRow) (workforce : Workforce)
    (start_date : StartArg) : Option ScheduleResult :=
  match processGroups workforce fuel
      (normStartDict start_date (uniqueInOrder (field_table.map FieldRow.group))) none
      ((sortStrings (uniqueInOrder (field_table.map FieldRow.group))).map
        (fun k => (k, field_table.filter (fun r => r.group == k)))) with
  | none => none
  | some (.abort pe) => some ⟨dataFrameOfRecords pe, true⟩
  | some (.ok es) => some ⟨dataFrameOfRecords es, false⟩

/- ### Scheduler loop invariants -/

/-- Invariant of the inner-loop state: valid cursor and sampled day, the
sampled day never ahead of the cursor's day, the remaining capacity
bounded by the sampled day's capacity, and the stored worker count equal
to the sampled day's count. -/
def LInv (wf : Workforce) (s : LoopSt) : Prop :=
  s.cursor.Valid ∧ s.curDate.Valid ∧ s.curDate.idx ≤ s.cursor.date.idx ∧
  s.cap ≤ wf.get_daily_work_hours s.curDate ∧ s.count = wf.get_daily_worker_count s.curDate

instance (wf : Workforce) (s : LoopSt) : Decidable (LInv wf s) := by
  unfold LInv; infer_instance

theorem syncState_cursor (wf : Workforce) (s : LoopSt) :
    (syncState wf s).cursor = s.cursor := by
  unfold syncState; split <;> rfl

theorem syncState_rem (wf : Workforce) (s : LoopSt) : (syncState wf s).rem = s.rem := by
  unfold syncState; split <;> rfl

theorem syncState_curDate (wf : Workforce) (s : LoopSt) :
    (syncState wf s).curDate = s.cursor.date := by
  unfold syncState
  split <;> rename_i h
  · rfl
  · simp only [ne_eq, not_not] at h
    exact h.symm

theorem LInv_sync {wf : Workforce} {s : LoopSt} (h : LInv wf s) : LInv wf (syncState wf s) := by
  unfold syncState
  split
  · exact ⟨h.1, h.1.1, le_refl _, le_refl _, rfl⟩
  · exact h

/-- The key of a valid datetime pins down its day index from below. -/
theorem date_idx_ge_of_key_ge {v : DateTime} (hv : v.Valid) {n : ℤ}
    (h : 24 * (n : ℚ) ≤ v.key) : n ≤ v.date.idx := by
  obtain ⟨_, h0, h24⟩ := hv
  by_contra hc
  push_neg at hc
  have hlt : (v.date.idx : ℚ) + 1 ≤ (n : ℚ) := by exact_mod_cast hc
  have hk : v.key = 24 * (v.date.idx : ℚ) + v.tod := rfl
  linarith

/-- An integer lower bound on the key survives rounding. -/
theorem round_key_ge_int {t : DateTime} (ht : t.Valid) {n : ℤ}
    (h : (n : ℚ) ≤ t.key) : (n : ℚ) ≤ (round_to_nearest_hour t).key := by
  have h1 : (n : ℚ) ≤ (⌊t.key⌋ : ℚ) := by exact_mod_cast Int.le_floor.mpr h
  linarith [round_key_ge_floor ht]

/-- The day part of addHours never moves backwards. -/
theorem DateTime.addHours_date_idx_ge {t : DateTime} (ht : t.Valid) {q : ℚ} (_hq : 0 ≤ q) :
    t.date.idx ≤ (t.addHours q).date.idx := by
  have hit := Date.idx_iterate_next ht.1 (⌊(t.tod + q) / 24⌋).toNat
  unfold DateTime.addHours
  simp only
  rw [hit.2]
  omega

/-- Invariant preservation and cursor monotonicity for the while loop when
it finishes a field. -/
theorem fieldLoop_done_facts {wf : Workforce} {tod : ℚ} (hTod0 : 0 ≤ tod) (hTod24 : tod < 24) :
    ∀ {fuel : ℕ} {s s' : LoopSt},
      fieldLoop wf tod fuel s = some (.done s') → LInv wf s →
      LInv wf s' ∧ s.cursor.key ≤ s'.cursor.key := by
  intro fuel
  induction fuel with
  | zero =>
    intro s s' h
    simp [fieldLoop] at h
  | succ n ih =>
    intro s s' h hInv
    unfold fieldLoop at h
    have hInv1 : LInv wf (syncState wf s) := LInv_sync hInv
    split at h
    · rename_i hrem
      split at h
      · rename_i hguard
        split at h
        · exact absurd h (by simp)
        · rename_i hdoy
          obtain ⟨hc1, hd1, hi1, hcap1, hcnt1⟩ := hInv1
          have hnextv := Date.next_valid hd1
          have hnexti := Date.idx_next hd1
          have hInv2 : LInv wf
              { syncState wf s with cursor := ⟨(syncState wf s).curDate.next, tod⟩ } :=
            ⟨⟨hnextv, hTod0, hTod24⟩, hd1, by simp only; omega, hcap1, hcnt1⟩
          have := ih h hInv2
          refine ⟨this.1, le_trans ?_ this.2⟩
          have hcd : (syncState wf s).curDate = s.cursor.date := syncState_curDate wf s
          have hcu : (syncState wf s).cursor = s.cursor := syncState_cursor wf s
          show s.cursor.key ≤ (DateTime.mk (syncState wf s).curDate.next tod).key
          have hk1 : s.cursor.key = 24 * (s.cursor.date.idx : ℚ) + s.cursor.tod := rfl
          have hk2 : (DateTime.mk (syncState wf s).curDate.next tod).key
              = 24 * (((syncState wf s).curDate.next.idx : ℤ) : ℚ) + tod := rfl
          rw [hk1, hk2, hnexti, hcd]
          have htodlt : s.cursor.tod < 24 := hInv.1.2.2
          push_cast
          linarith
      · rename_i hguard
        push_neg at hguard
        obtain ⟨hcapPos, hcntNe⟩ := hguard
        obtain ⟨hc1, hd1, hi1, hcap1, hcnt1⟩ := hInv1
        have hcntNonneg : 0 ≤ (syncState wf s).count := by
          rw [hcnt1]; exact Workforce.count_nonneg wf _
        have hcntPos : 0 < (syncState wf s).count := lt_of_le_of_ne hcntNonneg (Ne.symm hcntNe)
        have hremPos : 0 < (syncState wf s).rem := by
          rw [syncState_rem]; exact ‹0 < s.rem›
        have hminPos : 0 < min (syncState wf s).rem (syncState wf s).cap :=
          lt_min hremPos hcapPos
        have hqPos : 0 ≤ min (syncState wf s).rem (syncState wf s).cap / (syncState wf s).count :=
          le_of_lt (div_pos hminPos hcntPos)
        have hadd := DateTime.addHours_valid_key hc1 hqPos
        have hInv2 : LInv wf
            { syncState wf s with
              cursor := (syncState wf s).cursor.addHours
                (min (syncState wf s).rem (syncState wf s).cap / (syncState wf s).count),
              rem := (syncState wf s).rem - min (syncState wf s).rem (syncState wf s).cap,
              cap := (syncState wf s).cap - min (syncState wf s).rem (syncState wf s).cap } := by
          refine ⟨hadd.1, hd1, ?_, ?_, hcnt1⟩
          · simp only
            exact le_trans hi1 (DateTime.addHours_date_idx_ge hc1 hqPos)
          · simp only
            linarith
        have := ih h hInv2
        refine ⟨this.1, le_trans ?_ this.2⟩
        show s.cursor.key ≤ ((syncState wf s).cursor.addHours _).key
        rw [hadd.2, syncState_cursor]
        linarith
    · rename_i hrem
      have hs : s' = s := by
        have := Option.some.inj h
        cases this
        rfl
      rw [hs]
      exact ⟨hInv, le_refl _⟩

/-- Invariant of the per-group state. -/
def GInv (wf : Workforce) (g : GroupSt) : Prop :=
  g.cursor.Valid ∧ g.curDate.Valid ∧ g.curDate.idx ≤ g.cursor.date.idx ∧
  g.cap ≤ wf.get_daily_work_hours g.curDate ∧ g.count = wf.get_daily_worker_count g.curDate

theorem GInv_init {wf : Workforce} {c0 : DateTime} (h : c0.Valid) :
    GInv wf (initGroupSt wf c0) :=
  ⟨h, h.1, le_refl _, le_refl _, rfl⟩

/-- Facts established by one completed field: the entry starts at the
incoming cursor, ends at the new (rounded, whole-hour) cursor, carries the
row's group, loses less than half an hour against its own start, respects
whole-hour lower bounds, and preserves the group invariant. -/
theorem processField_ok_facts {wf : Workforce} {tod : ℚ} (hTod0 : 0 ≤ tod) (hTod24 : tod < 24)
    {fuel : ℕ} {g g' : GroupSt} {row : FieldRow} {e : ScheduleEntry}
    (hInv : GInv wf g)
    (h : processField wf tod fuel g row = some (.ok (g', e))) :
    GInv wf g' ∧ e.start_date = g.cursor ∧ e.end_date = g'.cursor ∧ e.group = row.group ∧
    g'.cursor.Whole ∧
    e.start_date.key < e.end_date.key + 1 / 2 ∧
    (e.start_date.Whole → e.start_date.key ≤ e.end_date.key) ∧
    (∀ n : ℤ, (n : ℚ) ≤ g.cursor.key → (n : ℚ) ≤ g'.cursor.key) := by
  unfold processField at h
  split at h
  · exact absurd h (by simp)
  · exact absurd h (by simp)
  · rename_i s hloop
    have hfacts := fieldLoop_done_facts hTod0 hTod24 hloop hInv
    obtain ⟨⟨hsv, hsd, hsi, hscap, hscnt⟩, hkey⟩ := hfacts
    have hround := round_valid_whole hsv
    have hrge := round_key_ge_floor hsv
    have hrgt := round_key_gt hsv
    simp only [Option.some.injEq, StepRes.ok.injEq, Prod.mk.injEq] at h
    obtain ⟨hg', he⟩ := h
    subst hg'
    subst he
    have hstart : g.cursor.key ≤ s.cursor.key := hkey
    have hidx : s.curDate.idx ≤ (round_to_nearest_hour s.cursor).date.idx := by
      apply le_trans hsi
      apply date_idx_ge_of_key_ge hround.1
      have h1 : 24 * (s.cursor.date.idx : ℚ) ≤ (⌊s.cursor.key⌋ : ℚ) := by
        rw [DateTime.floor_key]
        have hnn : (0 : ℚ) ≤ (⌊s.cursor.tod⌋ : ℚ) := by
          exact_mod_cast Int.floor_nonneg.mpr hsv.2.1
        push_cast
        linarith
      linarith
    refine ⟨⟨hround.1, hsd, hidx, hscap, hscnt⟩, rfl, rfl, rfl, hround.2, ?_, ?_, ?_⟩
    · simp only
      linarith
    · intro hw
      simp only at hw ⊢
      exact round_key_ge_whole hsv hw hstart
    · intro n hn
      simp only
      exact round_key_ge_int hsv (le_trans hn hstart)

/-- The entries carried by a step result. -/
def StepRes.entries : StepRes (GroupSt × List ScheduleEntry) → List ScheduleEntry
  | .ok (_, es) => es
  | .abort pe => pe

/-- Facts established by processing the rows of one group from a state
whose cursor is at or above an integer (whole-hour) key bound glb: every
emitted entry starts and ends at or above glb, loses less than half an
hour against its own start, respects whole-hour starts, and carries a
group value from the rows; on normal completion the invariant holds again,
the final cursor is still at or above glb, every entry ends by the final
cursor, and the final cursor is on a whole hour unless nothing ran. -/
theorem processFields_facts {wf : Workforce} {tod : ℚ} (hTod0 : 0 ≤ tod) (hTod24 : tod < 24)
    {fuel : ℕ} :
    ∀ {rows : List FieldRow} {g : GroupSt} {res},
      processFields wf tod fuel g rows = some res →
      GInv wf g →
      ∀ glb : ℤ, (glb : ℚ) ≤ g.cursor.key →
      (∀ e ∈ res.entries,
          (glb : ℚ) ≤ e.start_date.key ∧ (glb : ℚ) ≤ e.end_date.key ∧
          e.start_date.key < e.end_date.key + 1 / 2 ∧
          (e.start_date.Whole → e.start_date.key ≤ e.end_date.key) ∧
          e.group ∈ rows.map FieldRow.group) ∧
      (∀ g2 es, res = .ok (g2, es) →
          GInv wf g2 ∧ (glb : ℚ) ≤ g2.cursor.key ∧
          (∀ e ∈ es, e.end_date.key ≤ g2.cursor.key) ∧
          (g2.cursor.Whole ∨ (g2 = g ∧ es = [] ∧ rows = []))) := by
  intro rows
  induction rows with
  | nil =>
    intro g res h hInv glb hglb
    unfold processFields at h
    have hres : res = .ok (g, []) := (Option.some.inj h).symm
    subst hres
    constructor
    · intro e he
      simp [StepRes.entries] at he
    · intro g2 es hok
      obtain ⟨hg2, hes⟩ := Prod.mk.injEq _ _ _ _ ▸ StepRes.ok.inj hok
      subst hg2
      subst hes
      exact ⟨hInv, hglb, by simp, Or.inr ⟨rfl, rfl, rfl⟩⟩
  | cons r rs ih =>
    intro g res h hInv glb hglb
    unfold processFields at h
    split at h
    · exact absurd h (by simp)
    · rename_i habort
      have hres : res = .abort [] := (Option.some.inj h).symm
      subst hres
      constructor
      · intro e he
        simp [StepRes.entries] at he
      · intro g2 es hok
        exact absurd hok (by simp)
    · rename_i g' e hok1
      have pf := processField_ok_facts hTod0 hTod24 hInv hok1
      obtain ⟨hInv', hstart, hend, hgrp, hwhole', hE, hF, hG⟩ := pf
      have hglb' : (glb : ℚ) ≤ g'.cursor.key := hG glb hglb
      split at h
      · exact absurd h (by simp)
      · rename_i pe hrec
        have hres : res = .abort (e :: pe) := (Option.some.inj h).symm
        subst hres
        have hih := ih hrec hInv' glb hglb'
        constructor
        · intro e2 he2
          simp only [StepRes.entries, List.mem_cons] at he2
          rcases he2 with rfl | he2
          · refine ⟨?_, ?_, hE, hF, ?_⟩
            · rw [hstart]; exact hglb
            · rw [hend]; exact hglb'
            · rw [hgrp]; simp
          · have := hih.1 e2 (by simpa [StepRes.entries] using he2)
            exact ⟨this.1, this.2.1, this.2.2.1, this.2.2.2.1, by simp [this.2.2.2.2]⟩
        · intro g2 es hok
          exact absurd hok (by simp)
      · rename_i g2 es' hrec
        have hres : res = .ok (g2, e :: es') := (Option.some.inj h).symm
        subst hres
        have hih := ih hrec hInv' glb hglb'
        have hokpart := hih.2 g2 es' rfl
        obtain ⟨hInv2, hglb2, hends2, hwh2⟩ := hokpart
        have hg'le : g'.cursor.key ≤ g2.cursor.key := by
          have hwk : ((⌊g'.cursor.key⌋ : ℤ) : ℚ) = g'.cursor.key := hwhole'
          have := (ih hrec hInv' ⌊g'.cursor.key⌋ (le_of_eq hwk)).2 g2 es' rfl
          calc g'.cursor.key = ((⌊g'.cursor.key⌋ : ℤ) : ℚ) := hwk.symm
            _ ≤ g2.cursor.key := this.2.1
        constructor
        · intro e2 he2
          simp only [StepRes.entries, List.mem_cons] at he2
          rcases he2 with rfl | he2
          · refine ⟨?_, ?_, hE, hF, ?_⟩
            · rw [hstart]; exact hglb
            · rw [hend]; exact hglb'
            · rw [hgrp]; simp
          · have := hih.1 e2 (by simpa [StepRes.entries] using he2)
            exact ⟨this.1, this.2.1, this.2.2.1, this.2.2.2.1, by simp [this.2.2.2.2]⟩
        · intro g3 es3 hok3
          obtain ⟨hg3, hes3⟩ := Prod.mk.injEq _ _ _ _ ▸ StepRes.ok.inj hok3
          subst hg3
          subst hes3
          refine ⟨hInv2, hglb2, ?_, ?_⟩
          · intro e2 he2
            rcases List.mem_cons.mp he2 with rfl | he2
            · rw [hend]; exact hg'le
            · exact hends2 e2 he2
          · left
            rcases hwh2 with hw | ⟨hq, _, _⟩
            · exact hw
            · rw [hq]; exact hwhole'

/-- The entries carried by a group-level step result. -/
def StepRes.entriesG : StepRes (List ScheduleEntry) → List ScheduleEntry
  | .ok es => es
  | .abort pe => pe

/-- The two per-entry facts of the corrected end-versus-start claim. -/
def EntryOK (e : ScheduleEntry) : Prop :=
  e.start_date.key < e.end_date.key + 1 / 2 ∧
  (e.start_date.Whole → e.start_date.key ≤ e.end_date.key)

theorem lookup_mem {α β : Type} [BEq α] :
    ∀ {l : List (α × β)} {k : α} {v : β}, l.lookup k = some v → ∃ k', (k', v) ∈ l := by
  intro l
  induction l with
  | nil => intro k v h; simp [List.lookup] at h
  | cons p t ih =>
    intro k v h
    rw [List.lookup] at h
    split at h
    · exact ⟨p.1, by rw [← Option.some.inj h]; simp⟩
    · obtain ⟨k', hk'⟩ := ih h
      exact ⟨k', List.mem_cons_of_mem p hk'⟩

/-- Facts established by the sequential group pass: every emitted entry
satisfies the per-entry end bounds, starts and ends at or after the
incoming global cursor, and entries of different groups occupy disjoint
half-open intervals. -/
theorem processGroups_facts {wf : Workforce} {fuel : ℕ} {dict : List (String × DateTime)}
    (hdict : ∀ p ∈ dict, (p.2 : DateTime).Valid) :
    ∀ {gs : List (String × List FieldRow)} {glob : Option DateTime} {res},
      processGroups wf fuel dict glob gs = some res →
      (∀ gl ∈ glob, gl.Valid ∧ gl.Whole) →
      (∀ p ∈ gs, ∀ r ∈ p.2, r.group = p.1) →
      (∀ p ∈ gs, p.2 ≠ []) →
      (∀ e ∈ res.entriesG, EntryOK e) ∧
      (∀ e ∈ res.entriesG, ∀ gl ∈ glob,
          gl.key ≤ e.start_date.key ∧ gl.key ≤ e.end_date.key) ∧
      (∀ e1 ∈ res.entriesG, ∀ e2 ∈ res.entriesG, e1.group ≠ e2.group →
          e1.end_date.key ≤ e2.start_date.key ∨ e2.end_date.key ≤ e1.start_date.key) := by
  intro gs
  induction gs with
  | nil =>
    intro glob res h _ _ _
    have hres : res = .ok [] := (Option.some.inj h).symm
    subst hres
    refine ⟨?_, ?_, ?_⟩ <;> intro e he <;> simp [StepRes.entriesG] at he
  | cons p rest ih =>
    obtain ⟨gname, rows⟩ := p
    intro glob res h hglob hgs hne
    have hgsRest : ∀ p ∈ rest, ∀ r ∈ p.2, r.group = p.1 :=
      fun p hp => hgs p (List.mem_cons_of_mem _ hp)
    have hneRest : ∀ p ∈ rest, p.2 ≠ [] := fun p hp => hne p (List.mem_cons_of_mem _ hp)
    have hgsHead : ∀ r ∈ rows, r.group = gname := hgs _ (List.mem_cons_self _ _)
    have hneHead : rows ≠ [] := hne _ (List.mem_cons_self _ _)
    unfold processGroups at h
    split at h
    · exact ih h hglob hgsRest hneRest
    · rename_i gsd hlook
      obtain ⟨k', hk'⟩ := lookup_mem hlook
      have hgsdV : gsd.Valid := hdict _ hk'
      have hTod0 : 0 ≤ gsd.tod := hgsdV.2.1
      have hTod24 : gsd.tod < 24 := hgsdV.2.2
      obtain ⟨hc0V, glb, hglbKey, hglbC0⟩ :
          (effectiveStart gsd glob).Valid ∧
          ∃ glb : ℤ, (∀ gl ∈ glob, (glb : ℚ) = gl.key) ∧
            (glb : ℚ) ≤ (effectiveStart gsd glob).key := by
        cases glob with
        | none =>
          exact ⟨hgsdV, ⌊gsd.key⌋, by simp, Int.floor_le _⟩
        | some gl =>
          refine ⟨DateTime.pymax_valid hgsdV (hglob gl rfl).1, ⌊gl.key⌋, ?_, ?_⟩
          · intro gl' hgl'
            have hgg : gl = gl' := by simpa using hgl'
            rw [← hgg]
            exact (hglob gl rfl).2
          · show (⌊gl.key⌋ : ℚ) ≤ (gsd.pymax gl).key
            rw [DateTime.pymax_key]
            calc (⌊gl.key⌋ : ℚ) ≤ gl.key := Int.floor_le _
              _ ≤ max gsd.key gl.key := le_max_right _ _
      have hInv0 : GInv wf (initGroupSt wf (effectiveStart gsd glob)) := GInv_init hc0V
      split at h
      · exact absurd h (by simp)
      · rename_i pe hpf
        have hres : res = .abort pe := (Option.some.inj h).symm
        subst hres
        have hpff := processFields_facts hTod0 hTod24 hpf hInv0 glb hglbC0
        have hEntries := hpff.1
        refine ⟨?_, ?_, ?_⟩
        · intro e he
          have := hEntries e (by simpa [StepRes.entries, StepRes.entriesG] using he)
          exact ⟨this.2.2.1, this.2.2.2.1⟩
        · intro e he gl hgl
          have := hEntries e (by simpa [StepRes.entries, StepRes.entriesG] using he)
          rw [← hglbKey gl hgl]
          exact ⟨this.1, this.2.1⟩
        · intro e1 he1 e2 he2 hne12
          exfalso
          apply hne12
          have h1 := (hEntries e1 (by simpa [StepRes.entries, StepRes.entriesG] using he1)).2.2.2.2
          have h2 := (hEntries e2 (by simpa [StepRes.entries, StepRes.entriesG] using he2)).2.2.2.2
          simp only [List.mem_map] at h1 h2
          obtain ⟨r1, hr1, hg1⟩ := h1
          obtain ⟨r2, hr2, hg2⟩ := h2
          rw [← hg1, ← hg2, hgsHead r1 hr1, hgsHead r2 hr2]
      · rename_i g2 es hpf
        have hpff := processFields_facts hTod0 hTod24 hpf hInv0 glb hglbC0
        have hEntries := hpff.1
        have hOk := hpff.2 g2 es rfl
        obtain ⟨hInv2, hglb2, hends2, hwh2⟩ := hOk
        have hwhole2 : g2.cursor.Whole := by
          rcases hwh2 with hw | ⟨_, _, hr⟩
          · exact hw
          · exact absurd hr hneHead
        have hglob' : ∀ gl ∈ (some g2.cursor : Option DateTime), gl.Valid ∧ gl.Whole := by
          intro gl hgl
          have hgg : g2.cursor = gl := by simpa using hgl
          rw [← hgg]
          exact ⟨hInv2.1, hwhole2⟩
        have hesFacts : ∀ e ∈ es,
            (glb : ℚ) ≤ e.start_date.key ∧ (glb : ℚ) ≤ e.end_date.key ∧
            e.start_date.key < e.end_date.key + 1 / 2 ∧
            (e.start_date.Whole → e.start_date.key ≤ e.end_date.key) ∧
            e.group ∈ rows.map FieldRow.group := by
          intro e he
          exact hEntries e (by simpa [StepRes.entries] using he)
        have hesGroups : ∀ e ∈ es, e.group = gname := by
          intro e he
          have := (hesFacts e he).2.2.2.2
          simp only [List.mem_map] at this
          obtain ⟨r1, hr1, hg1⟩ := this
          rw [← hg1, hgsHead r1 hr1]
        split at h
        · exact absurd h (by simp)
        · rename_i pe2 hrec
          have hres : res = .abort (es ++ pe2) := (Option.some.inj h).symm
          subst hres
          have hihAll := ih hrec hglob' hgsRest hneRest
          have hmemSplit : ∀ e, e ∈ (StepRes.abort (es ++ pe2) :
              StepRes (List ScheduleEntry)).entriesG → e ∈ es ∨ e ∈ pe2 := by
            intro e he
            simpa [StepRes.entriesG] using he
          have hpe2In : ∀ e ∈ pe2, e ∈ (StepRes.abort pe2 :
              StepRes (List ScheduleEntry)).entriesG := by
            intro e he
            simpa [StepRes.entriesG] using he
          refine ⟨?_, ?_, ?_⟩
          · intro e he
            rcases hmemSplit e he with he | he
            · have := hesFacts e he
              exact ⟨this.2.2.1, this.2.2.2.1⟩
            · exact hihAll.1 e (hpe2In e he)
          · intro e he gl hgl
            rcases hmemSplit e he with he | he
            · have := hesFacts e he
              rw [← hglbKey gl hgl]
              exact ⟨this.1, this.2.1⟩
            · have := hihAll.2.1 e (hpe2In e he) g2.cursor rfl
              rw [← hglbKey gl hgl] at *
              constructor
              · calc (glb : ℚ) ≤ g2.cursor.key := hglb2
                  _ ≤ e.start_date.key := this.1
              · calc (glb : ℚ) ≤ g2.cursor.key := hglb2
                  _ ≤ e.end_date.key := this.2
          · intro e1 he1 e2 he2 hne12
            rcases hmemSplit e1 he1 with h1 | h1 <;> rcases hmemSplit e2 he2 with h2 | h2
            · exfalso
              apply hne12
              rw [hesGroups e1 h1, hesGroups e2 h2]
            · left
              have hb := hihAll.2.1 e2 (hpe2In e2 h2) g2.cursor rfl
              calc e1.end_date.key ≤ g2.cursor.key := hends2 e1 h1
                _ ≤ e2.start_date.key := hb.1
            · right
              have hb := hihAll.2.1 e1 (hpe2In e1 h1) g2.cursor rfl
              calc e2.end_date.key ≤ g2.cursor.key := hends2 e2 h2
                _ ≤ e1.start_date.key := hb.1
            · exact hihAll.2.2 e1 (hpe2In e1 h1) e2 (hpe2In e2 h2) hne12
        · rename_i es2 hrec
          have hres : res = .ok (es ++ es2) := (Option.some.inj h).symm
          subst hres
          have hihAll := ih hrec hglob' hgsRest hneRest
          have hmemSplit : ∀ e, e ∈ (StepRes.ok (es ++ es2) :
              StepRes (List ScheduleEntry)).entriesG → e ∈ es ∨ e ∈ es2 := by
            intro e he
            simpa [StepRes.entriesG] using he
          have hes2In : ∀ e ∈ es2, e ∈ (StepRes.ok es2 :
              StepRes (List ScheduleEntry)).entriesG := by
            intro e he
            simpa [StepRes.entriesG] using he
          refine ⟨?_, ?_, ?_⟩
          · intro e he
            rcases hmemSplit e he with he | he
            · have := hesFacts e he
              exact ⟨this.2.2.1, this.2.2.2.1⟩
            · exact hihAll.1 e (hes2In e he)
          · intro e he gl hgl
            rcases hmemSplit e he with he | he
            · have := hesFacts e he
              rw [← hglbKey gl hgl]
              exact ⟨this.1, this.2.1⟩
            · have := hihAll.2.1 e (hes2In e he) g2.cursor rfl
              rw [← hglbKey gl hgl] at *
              constructor
              · calc (glb : ℚ) ≤ g2.cursor.key := hglb2
                  _ ≤ e.start_date.key := this.1
              · calc (glb : ℚ) ≤ g2.cursor.key := hglb2
                  _ ≤ e.end_date.key := this.2
          · intro e1 he1 e2 he2 hne12
            rcases hmemSplit e1 he1 with h1 | h1 <;> rcases hmemSplit e2 he2 with h2 | h2
            · exfalso
              apply hne12
              rw [hesGroups e1 h1, hesGroups e2 h2]
            · left
              have hb := hihAll.2.1 e2 (hes2In e2 h2) g2.cursor rfl
              calc e1.end_date.key ≤ g2.cursor.key := hends2 e1 h1
                _ ≤ e2.start_date.key := hb.1
            · right
              have hb := hihAll.2.1 e1 (hes2In e1 h1) g2.cursor rfl
              calc e2.end_date.key ≤ g2.cursor.key := hends2 e2 h2
                _ ≤ e1.start_date.key := hb.1
            · exact hihAll.2.2 e1 (hes2In e1 h1) e2 (hes2In e2 h2) hne12

/- ### Top-level scheduler facts -/

/-- Validity of a date-or-datetime value. -/
def PyDateVal.Valid : PyDateVal → Prop
  | .pureDate d => d.Valid
  | .dateTime t => t.Valid

instance (v : PyDateVal) : Decidable v.Valid := by
  cases v <;> unfold PyDateVal.Valid <;> infer_instance

/-- Validity of the start_date argument. -/
def StartArg.Valid : StartArg → Prop
  | .single v => v.Valid
  | .byGroup m => ∀ p ∈ m, (p.2 : PyDateVal).Valid

instance (sd : StartArg) : Decidable sd.Valid := by
  cases sd <;> unfold StartArg.Valid <;> infer_instance

theorem normStartDict_valid {sd : StartArg} (hsd : sd.Valid) (gs : List String) :
    ∀ p ∈ normStartDict sd gs, (p.2 : DateTime).Valid := by
  intro p hp
  cases sd with
  | single v =>
    unfold normStartDict at hp
    simp only [List.mem_map] at hp
    obtain ⟨g, _, rfl⟩ := hp
    cases v with
    | pureDate d => exact ⟨hsd, by norm_num, by norm_num⟩
    | dateTime t => exact ⟨hsd.1, by norm_num, by norm_num⟩
  | byGroup m =>
    unfold normStartDict at hp
    simp only [List.mem_map] at hp
    obtain ⟨gv, hgv, rfl⟩ := hp
    have := hsd gv hgv
    cases hv : gv.2 with
    | pureDate d =>
      rw [hv] at this
      exact ⟨this, by norm_num, by norm_num⟩
    | dateTime t =>
      rw [hv] at this
      exact this

theorem mem_insertSorted {x y : String} {l : List String} :
    x ∈ insertSorted y l → x = y ∨ x ∈ l := by
  induction l with
  | nil => intro h; simpa [insertSorted] using h
  | cons z zs ih =>
    intro h
    unfold insertSorted at h
    split at h
    · simpa using h
    · rcases List.mem_cons.mp h with rfl | h2
      · right; exact List.mem_cons_self _ _
      · rcases ih h2 with h3 | h3
        · left; exact h3
        · right; exact List.mem_cons_of_mem _ h3

theorem mem_sortStrings {x : String} {l : List String} :
    x ∈ sortStrings l → x ∈ l := by
  induction l with
  | nil => intro h; simpa [sortStrings] using h
  | cons z zs ih =>
    intro h
    unfold sortStrings at h
    rcases mem_insertSorted h with rfl | h2
    · exact List.mem_cons_self _ _
    · exact List.mem_cons_of_mem _ (ih h2)

theorem mem_uniqueInOrder {x : String} {l : List String} :
    x ∈ uniqueInOrder l → x ∈ l := by
  have key : ∀ (l : List String) (acc : List String),
      x ∈ l.foldl (fun acc y => if acc.contains y then acc else acc ++ [y]) acc →
      x ∈ acc ∨ x ∈ l := by
    intro l
    induction l with
    | nil => intro acc h; exact Or.inl h
    | cons z zs ih =>
      intro acc h
      simp only [List.foldl_cons] at h
      rcases ih _ h with h2 | h2
      · split at h2
        · exact Or.inl h2
        · rcases List.mem_append.mp h2 with h3 | h3
          · exact Or.inl h3
          · right
            simp only [List.mem_singleton] at h3
            rw [h3]
            exact List.mem_cons_self _ _
      · right; exact List.mem_cons_of_mem _ h2
  intro h
  rcases key l [] h with h2 | h2
  · simp at h2
  · exact h2

/-- Per-entry and cross-group facts for the full scheduler output. -/
theorem schedule_facts {fuel : ℕ} {table : List FieldRow} {wf : Workforce} {sd : StartArg}
    {r : ScheduleResult} (hsd : sd.Valid)
    (h : schedule_field_work fuel table wf sd = some r) :
    (∀ e ∈ r.frame.records, EntryOK e) ∧
    (∀ e1 ∈ r.frame.records, ∀ e2 ∈ r.frame.records, e1.group ≠ e2.group →
        e1.end_date.key ≤ e2.start_date.key ∨ e2.end_date.key ≤ e1.start_date.key) := by
  have hdict := normStartDict_valid hsd (uniqueInOrder (table.map FieldRow.group))
  have hgs : ∀ p ∈ (sortStrings (uniqueInOrder (table.map FieldRow.group))).map
      (fun k => (k, table.filter (fun r => r.group == k))),
      ∀ row ∈ p.2, row.group = p.1 := by
    intro p hp row hrow
    simp only [List.mem_map] at hp
    obtain ⟨k, _, rfl⟩ := hp
    have := List.of_mem_filter hrow
    simpa using this
  have hne : ∀ p ∈ (sortStrings (uniqueInOrder (table.map FieldRow.group))).map
      (fun k => (k, table.filter (fun r => r.group == k))), p.2 ≠ [] := by
    intro p hp
    simp only [List.mem_map] at hp
    obtain ⟨k, hk, rfl⟩ := hp
    have hk2 : k ∈ table.map FieldRow.group := mem_uniqueInOrder (mem_sortStrings hk)
    simp only [List.mem_map] at hk2
    obtain ⟨row, hrow, hrg⟩ := hk2
    intro hc
    have hproj : table.filter (fun r => r.group == k) = [] := hc
    have : row ∈ table.filter (fun r => r.group == k) := by
      rw [List.mem_filter]
      exact ⟨hrow, by simp [hrg]⟩
    rw [hproj] at this
    simp at this
  unfold schedule_field_work at h
  split at h
  · exact absurd h (by simp)
  · rename_i pe hpg
    have hres : r = ⟨dataFrameOfRecords pe, true⟩ := (Option.some.inj h).symm
    subst hres
    have hfacts := processGroups_facts hdict hpg (by simp) hgs hne
    have hrec : (dataFrameOfRecords pe).records = pe := rfl
    rw [hrec]
    exact ⟨hfacts.1, hfacts.2.2⟩
  · rename_i es hpg
    have hres : r = ⟨dataFrameOfRecords es, false⟩ := (Option.some.inj h).symm
    subst hres
    have hfacts := processGroups_facts hdict hpg (by simp) hgs hne
    have hrec : (dataFrameOfRecords es).records = es := rfl
    rw [hrec]
    exact ⟨hfacts.1, hfacts.2.2⟩

/-- The entry emitted by a completed field starts at the incoming cursor
(pure destructuring of the definition, no side conditions). -/
theorem processField_start {wf : Workforce} {tod : ℚ} {fuel : ℕ} {g g' : GroupSt}
    {row : FieldRow} {e : ScheduleEntry}
    (h : processField wf tod fuel g row = some (.ok (g', e))) :
    e.start_date = g.cursor := by
  unfold processField at h
  split at h
  · exact absurd h (by simp)
  · exact absurd h (by simp)
  · simp only [Option.some.injEq, StepRes.ok.injEq, Prod.mk.injEq] at h
    rw [← h.2]

/-- The first entry emitted for a group's rows starts at the state's
cursor; at the top of a group that cursor is the group's effective start. -/
theorem processFields_head_start {wf : Workforce} {tod : ℚ} {fuel : ℕ} {g : GroupSt}
    {rows : List FieldRow} {res : StepRes (GroupSt × List ScheduleEntry)}
    (h : processFields wf tod fuel g rows = some res) :
    ∀ e, res.entries.head? = some e → e.start_date = g.cursor := by
  intro e he
  cases rows with
  | nil =>
    unfold processFields at h
    have hres : res = .ok (g, []) := (Option.some.inj h).symm
    subst hres
    simp [StepRes.entries] at he
  | cons r rs =>
    unfold processFields at h
    split at h
    · exact absurd h (by simp)
    · have hres : res = .abort [] := (Option.some.inj h).symm
      subst hres
      simp [StepRes.entries] at he
    · rename_i g' e0 hok
      split at h
      · exact absurd h (by simp)
      · rename_i pe hrec
        have hres : res = .abort (e0 :: pe) := (Option.some.inj h).symm
        subst hres
        simp only [StepRes.entries, List.head?_cons, Option.some.injEq] at he
        rw [← he]
        exact processField_start hok
      · rename_i g2 es hrec
        have hres : res = .ok (g2, e0 :: es) := (Option.some.inj h).symm
        subst hres
        simp only [StepRes.entries, List.head?_cons, Option.some.injEq] at he
        rw [← he]
        exact processField_start hok

/- ### Termination of the scheduler (claim C6) -/

/-- The first day strictly after the given day whose day-of-year is 365. -/
def next365 (d : Date) : Date :=
  if d.doy < 365 then ⟨d.year, 365⟩ else ⟨d.year + 1, 365⟩

theorem next365_valid {d : Date} (h : d.Valid) : (next365 d).Valid := by
  unfold next365
  split
  · exact ⟨by norm_num, by have := daysInYear_pos d.year; simp only; omega⟩
  · exact ⟨by norm_num, by have := daysInYear_pos (d.year + 1); simp only; omega⟩

theorem next365_doy (d : Date) : (next365 d).doy = 365 := by
  unfold next365; split <;> rfl

theorem next365_idx_gt {d : Date} (h : d.Valid) : d.idx < (next365 d).idx := by
  obtain ⟨h1, h2⟩ := h
  unfold next365
  split <;> rename_i hcase
  · show daysBeforeYear d.year + d.doy < daysBeforeYear d.year + 365
    omega
  · show daysBeforeYear d.year + d.doy < daysBeforeYear (d.year + 1) + 365
    have hmono := daysBeforeYear_mono (lt_add_one d.year)
    omega

/-- Any valid day-of-year-365 date strictly after d is at or after
next365 d. -/
theorem next365_min {d e : Date} (hd : d.Valid) (he : e.Valid) (hdoy : e.doy = 365)
    (hgt : d.idx < e.idx) : (next365 d).idx ≤ e.idx := by
  obtain ⟨hd1, hd2⟩ := hd
  obtain ⟨he1, he2⟩ := he
  have hgt' : daysBeforeYear d.year + d.doy < daysBeforeYear e.year + e.doy := hgt
  unfold next365
  split <;> rename_i hcase
  · show daysBeforeYear d.year + 365 ≤ daysBeforeYear e.year + e.doy
    rcases lt_trichotomy e.year d.year with hy | hy | hy
    · exfalso
      have h1 := daysBeforeYear_mono hy
      omega
    · rw [hy, hdoy]
    · have h1 := daysBeforeYear_mono hy
      have h2 := daysInYear_pos d.year
      omega
  · show daysBeforeYear (d.year + 1) + 365 ≤ daysBeforeYear e.year + e.doy
    rcases lt_trichotomy e.year (d.year + 1) with hy | hy | hy
    · exfalso
      have hy2 : e.year < d.year ∨ e.year = d.year := by omega
      rcases hy2 with hy2 | hy2
      · have h1 := daysBeforeYear_mono hy2
        omega
      · rw [hy2] at hgt'
        omega
    · rw [hy, hdoy]
    · have h1 := daysBeforeYear_mono hy
      have h2 := daysInYear_pos (d.year + 1)
      omega

/-- If the successor day does not land on day-of-year 365, the barrier
does not move. -/
theorem next365_next {d : Date} (hd : d.Valid) (hne : d.next.doy ≠ 365) :
    next365 d.next = next365 d := by
  have hnv := Date.next_valid hd
  have hni := Date.idx_next hd
  have h365v := next365_valid hd
  have h365nv := next365_valid hnv
  have hle1 : (next365 d).idx ≤ (next365 d.next).idx := by
    apply next365_min hd h365nv (next365_doy _)
    have := next365_idx_gt hnv
    omega
  have hle2 : (next365 d.next).idx ≤ (next365 d).idx := by
    apply next365_min hnv h365v (next365_doy _)
    have hgt := next365_idx_gt hd
    have hne2 : (next365 d).idx ≠ d.next.idx := by
      intro hc
      apply hne
      have := Date.idx_inj h365v hnv hc
      rw [← this, next365_doy]
    omega
  exact Date.idx_inj h365nv h365v (le_antisymm hle2 hle1)

/-- All work periods of all workers of a workforce. -/
def allPeriods (wf : Workforce) : List WorkPeriod :=
  wf.workers.flatMap Worker.work_periods

/-- Day index after which no work period is active. -/
def lastIdx (wf : Workforce) : ℤ :=
  ((allPeriods wf).map (fun p => p.end_date.date.idx)).foldl max 0

/-- A global bound on the daily capacity: the sum over all periods of the
nonnegative part of their hours. -/
def CapBound (wf : Workforce) : ℚ :=
  ((allPeriods wf).map (fun p => max p.work_hours 0)).sum

/-- Bound on the number of days a single work advance can jump. -/
def jumpBound (wf : Workforce) : ℤ := 2 + max 0 ⌈CapBound wf⌉

theorem lastIdx_ge {wf : Workforce} {p : WorkPeriod} (hp : p ∈ allPeriods wf) :
    p.end_date.date.idx ≤ lastIdx wf :=
  foldl_max_mem_le _ 0 _ (List.mem_map_of_mem _ hp)

theorem firstPositiveHours_zero_beyond {ps : List WorkPeriod} {d : Date}
    (h : ∀ p ∈ ps, p.end_date.date.idx < d.idx) :
    firstPositiveHours ps d = 0 := by
  induction ps with
  | nil => rfl
  | cons p t ih =>
    have hp := h p (List.mem_cons_self _ _)
    have hval : p.get_work_hours_for_date d = 0 := by
      unfold WorkPeriod.get_work_hours_for_date
      rw [if_neg]
      push_neg
      intro _
      omega
    unfold firstPositiveHours
    rw [hval, if_neg (lt_irrefl 0)]
    exact ih (fun q hq => h q (List.mem_cons_of_mem _ hq))

/-- Beyond the last period end, the workforce has no capacity. -/
theorem hours_zero_beyond {wf : Workforce} {d : Date} (h : lastIdx wf < d.idx) :
    wf.get_daily_work_hours d = 0 := by
  unfold Workforce.get_daily_work_hours
  have hz : ∀ w ∈ wf.workers, w.get_daily_work_hours d = 0 := by
    intro w hw
    apply firstPositiveHours_zero_beyond
    intro p hp
    have hmem : p ∈ allPeriods wf := by
      unfold allPeriods
      rw [List.mem_flatMap]
      exact ⟨w, hw, hp⟩
    have := lastIdx_ge hmem
    omega
  rw [List.sum_eq_zero]
  intro x hx
  simp only [List.mem_map] at hx
  obtain ⟨w, hw, rfl⟩ := hx
  exact hz w hw

theorem firstPositiveHours_le_capsum {ps : List WorkPeriod} {d : Date} :
    firstPositiveHours ps d ≤ (ps.map (fun p => max p.work_hours 0)).sum := by
  induction ps with
  | nil => simp [firstPositiveHours]
  | cons p t ih =>
    have hsumnn : 0 ≤ (t.map (fun p => max p.work_hours 0)).sum := by
      apply List.sum_nonneg
      intro x hx
      simp only [List.mem_map] at hx
      obtain ⟨q, _, rfl⟩ := hx
      exact le_max_right _ _
    unfold firstPositiveHours
    simp only [List.map_cons, List.sum_cons]
    split <;> rename_i hcase
    · have hval : p.get_work_hours_for_date d ≤ max p.work_hours 0 := by
        unfold WorkPeriod.get_work_hours_for_date
        split
        · split
          · exact le_max_left _ _
          · exact le_max_right _ _
        · exact le_max_right _ _
      linarith
    · have : 0 ≤ max p.work_hours 0 := le_max_right _ _
      linarith

/-- The daily capacity is bounded by CapBound, for every date. -/
theorem hours_le_capBound (wf : Workforce) (d : Date) :
    wf.get_daily_work_hours d ≤ CapBound wf := by
  unfold Workforce.get_daily_work_hours CapBound allPeriods
  induction wf.workers with
  | nil => simp
  | cons w t ih =>
    simp only [List.map_cons, List.sum_cons, List.flatMap_cons, List.map_append,
      List.sum_append]
    have h1 : w.get_daily_work_hours d ≤
        (w.work_periods.map (fun p => max p.work_hours 0)).sum :=
      firstPositiveHours_le_capsum
    linarith

theorem capBound_nonneg (wf : Workforce) : 0 ≤ CapBound wf := by
  unfold CapBound
  apply List.sum_nonneg
  intro x hx
  simp only [List.mem_map] at hx
  obtain ⟨q, _, rfl⟩ := hx
  exact le_max_right _ _

/-- Phase of a loop state for the termination measure: 2 before a pending
resample, 1 on a synced state that can still work, 0 on a synced state
that must skip. -/
def loopPhase (s : LoopSt) : ℤ :=
  if s.cursor.date = s.curDate then (if 0 < s.cap ∧ s.count ≠ 0 then 1 else 0) else 2

theorem loopPhase_nonneg (s : LoopSt) : 0 ≤ loopPhase s := by
  unfold loopPhase; split
  · split <;> omega
  · omega

theorem loopPhase_le_two (s : LoopSt) : loopPhase s ≤ 2 := by
  unfold loopPhase; split
  · split <;> omega
  · omega

theorem syncState_of_eq {wf : Workforce} {s : LoopSt} (h : s.cursor.date = s.curDate) :
    syncState wf s = s := by
  unfold syncState
  rw [if_neg]
  simpa using h

theorem loopPhase_ge_one_of_work {wf : Workforce} {s : LoopSt}
    (h : ¬((syncState wf s).cap ≤ 0 ∨ (syncState wf s).count = 0)) : 1 ≤ loopPhase s := by
  by_cases hs : s.cursor.date = s.curDate
  · rw [syncState_of_eq hs] at h
    push_neg at h
    unfold loopPhase
    rw [if_pos hs, if_pos ⟨h.1, h.2⟩]
  · unfold loopPhase
    rw [if_neg hs]
    omega

/-- With enough fuel (relative to the phase measure against a barrier
day), the while loop never runs out of fuel: it completes the field or
hits the day-of-year-365 abort. -/
theorem fieldLoop_no_none {wf : Workforce} {tod : ℚ} (hTod0 : 0 ≤ tod) (hTod24 : tod < 24)
    {B : ℤ} {Bd : Date} (hBdV : Bd.Valid) (hBdoy : Bd.doy = 365) (hBidx : Bd.idx = B)
    (hBgt : lastIdx wf + jumpBound wf < B) :
    ∀ (fuel : ℕ) (s : LoopSt), LInv wf s → s.cursor.date.idx < B →
      (3 * (B - s.cursor.date.idx) + loopPhase s).toNat < fuel →
      fieldLoop wf tod fuel s ≠ none := by
  intro fuel
  induction fuel with
  | zero =>
    intro s _ _ hM
    omega
  | succ n ih =>
    intro s hInv hB hM
    have hp0 := loopPhase_nonneg s
    have hp2 := loopPhase_le_two s
    have hInv1 : LInv wf (syncState wf s) := LInv_sync hInv
    obtain ⟨hc1, hd1, hi1, hcap1, hcnt1⟩ := hInv1
    have hcurD : (syncState wf s).curDate = s.cursor.date := syncState_curDate wf s
    have hcurs : (syncState wf s).cursor = s.cursor := syncState_cursor wf s
    have hcdV : s.cursor.date.Valid := hInv.1.1
    unfold fieldLoop
    split
    · split <;> rename_i hguard
      · split <;> rename_i hdoy
        · simp
        · -- skip to the next day
          intro hcontra
          have hnextV := Date.next_valid (hcurD ▸ hd1)
          have hnextI : (syncState wf s).curDate.next.idx = s.cursor.date.idx + 1 := by
            rw [hcurD]
            exact Date.idx_next hcdV
          have hgidx : (syncState wf s).curDate.idx = s.cursor.date.idx := by
            rw [hcurD]
          have hcd2B : (syncState wf s).curDate.next.idx < B := by
            rcases lt_or_eq_of_le (by omega : (syncState wf s).curDate.next.idx ≤ B)
              with hlt | heq
            · exact hlt
            · exfalso
              apply hdoy
              have hBd2 : (syncState wf s).curDate.next = Bd :=
                Date.idx_inj (hcurD ▸ Date.next_valid (hcurD ▸ hd1)) hBdV (by omega)
              rw [hBd2, hBdoy]
          have hInv2 : LInv wf
              { syncState wf s with cursor := ⟨(syncState wf s).curDate.next, tod⟩ } :=
            ⟨⟨hcurD ▸ Date.next_valid (hcurD ▸ hd1), hTod0, hTod24⟩, hd1,
              by simp only; omega, hcap1, hcnt1⟩
          have hlt2 : ({ syncState wf s with
              cursor := ⟨(syncState wf s).curDate.next, tod⟩ } : LoopSt).cursor.date.idx
              < B := by
            simp only
            exact hcd2B
          have hph := loopPhase_le_two
            ({ syncState wf s with cursor := ⟨(syncState wf s).curDate.next, tod⟩ } : LoopSt)
          have hph0 := loopPhase_nonneg
            ({ syncState wf s with cursor := ⟨(syncState wf s).curDate.next, tod⟩ } : LoopSt)
          have hMeas : (3 * (B - ({ syncState wf s with
              cursor := ⟨(syncState wf s).curDate.next, tod⟩ } : LoopSt).cursor.date.idx)
              + loopPhase ({ syncState wf s with
                cursor := ⟨(syncState wf s).curDate.next, tod⟩ } : LoopSt)).toNat < n := by
            simp only at hph hph0 ⊢
            omega
          exact ih _ hInv2 hlt2 hMeas hcontra
      · -- work branch
        push_neg at hguard
        obtain ⟨hcapPos, hcntNe⟩ := hguard
        have hphase1 : 1 ≤ loopPhase s := loopPhase_ge_one_of_work
          (by push_neg; exact ⟨hcapPos, hcntNe⟩)
        have hcntEq : (syncState wf s).count = wf.get_daily_worker_count
            (syncState wf s).curDate := hcnt1
        have hcntGe1 : 1 ≤ (syncState wf s).count := by
          rw [hcntEq]
          apply Workforce.count_ge_one
          rw [← hcntEq]
          exact hcntNe
        have hremPos : 0 < (syncState wf s).rem := by
          rw [syncState_rem]
          assumption
        have hminPos : 0 < min (syncState wf s).rem (syncState wf s).cap :=
          lt_min hremPos hcapPos
        have hq0 : 0 ≤ min (syncState wf s).rem (syncState wf s).cap / (syncState wf s).count :=
          le_of_lt (div_pos hminPos (by linarith))
        have hqCap : min (syncState wf s).rem (syncState wf s).cap / (syncState wf s).count
            ≤ CapBound wf := by
          have h1 : min (syncState wf s).rem (syncState wf s).cap / (syncState wf s).count
              ≤ min (syncState wf s).rem (syncState wf s).cap := by
            rw [div_le_iff (by linarith : (0:ℚ) < (syncState wf s).count)]
            nlinarith [le_of_lt hminPos]
          have h2 : min (syncState wf s).rem (syncState wf s).cap ≤ (syncState wf s).cap :=
            min_le_right _ _
          have h3 : (syncState wf s).cap ≤ wf.get_daily_work_hours (syncState wf s).curDate :=
            hcap1
          have h4 := hours_le_capBound wf (syncState wf s).curDate
          linarith
        have hcurLe : (syncState wf s).curDate.idx ≤ lastIdx wf := by
          by_contra hcon
          push_neg at hcon
          have := hours_zero_beyond hcon
          rw [this] at hcap1
          linarith
        have hadd := DateTime.addHours_valid_key hc1
          (q := min (syncState wf s).rem (syncState wf s).cap / (syncState wf s).count) hq0
        -- bound the day jump
        have hjump : ((syncState wf s).cursor.addHours
            (min (syncState wf s).rem (syncState wf s).cap / (syncState wf s).count)).date.idx
            ≤ (syncState wf s).cursor.date.idx + (jumpBound wf - 1) := by
          set q := min (syncState wf s).rem (syncState wf s).cap / (syncState wf s).count
            with hqdef
          have htodlt : (syncState wf s).cursor.tod < 24 := hc1.2.2
          have htod0 : 0 ≤ (syncState wf s).cursor.tod := hc1.2.1
          have hn : (((syncState wf s).cursor.tod + q) / 24) ≤ 1 + q / 24 := by
            rw [div_le_iff (by norm_num : (0:ℚ) < 24)]
            ring_nf
            nlinarith
          have hfl : ⌊((syncState wf s).cursor.tod + q) / 24⌋ ≤ 1 + ⌊q / 24⌋ := by
            calc ⌊((syncState wf s).cursor.tod + q) / 24⌋ ≤ ⌊1 + q / 24⌋ :=
                Int.floor_le_floor hn
              _ = 1 + ⌊q / 24⌋ := by
                rw [show (1 : ℚ) + q / 24 = q / 24 + ((1 : ℤ) : ℚ) by push_cast; ring]
                rw [Int.floor_add_int]
                omega
          have hq24 : q / 24 ≤ q := by
            rw [div_le_iff (by norm_num : (0:ℚ) < 24)]
            nlinarith
          have hflq : ⌊q / 24⌋ ≤ max 0 ⌈CapBound wf⌉ := by
            have h1 : ⌊q / 24⌋ ≤ ⌊CapBound wf⌋ := Int.floor_le_floor (le_trans hq24 hqCap)
            have h2 : ⌊CapBound wf⌋ ≤ ⌈CapBound wf⌉ := Int.floor_le_ceil _
            omega
          have hit := Date.idx_iterate_next hc1.1 (⌊((syncState wf s).cursor.tod + q) / 24⌋).toNat
          unfold DateTime.addHours
          simp only
          rw [hit.2]
          unfold jumpBound
          have hflnn : (0:ℤ) ≤ ⌊((syncState wf s).cursor.tod + q) / 24⌋ ∨ True := Or.inr trivial
          omega
        have hcd2B : ((syncState wf s).cursor.addHours
            (min (syncState wf s).rem (syncState wf s).cap / (syncState wf s).count)).date.idx
            < B := by
          have hcursIdx : (syncState wf s).cursor.date.idx = (syncState wf s).curDate.idx := by
            rw [hcurs, hcurD]
          omega
        have hInv2 : LInv wf
            { syncState wf s with
              cursor := (syncState wf s).cursor.addHours
                (min (syncState wf s).rem (syncState wf s).cap / (syncState wf s).count),
              rem := (syncState wf s).rem - min (syncState wf s).rem (syncState wf s).cap,
              cap := (syncState wf s).cap - min (syncState wf s).rem (syncState wf s).cap } := by
          refine ⟨hadd.1, hd1, ?_, ?_, hcnt1⟩
          · simp only
            exact le_trans hi1 (DateTime.addHours_date_idx_ge hc1 hq0)
          · simp only
            linarith
        by_cases hfin : (syncState wf s).rem - min (syncState wf s).rem (syncState wf s).cap ≤ 0
        · -- the field finishes in this step, one more unfold returns done
          intro hcontra
          have hn1 : 1 ≤ n := by omega
          obtain ⟨m, rfl⟩ : ∃ m, n = m + 1 := ⟨n - 1, by omega⟩
          unfold fieldLoop at hcontra
          rw [if_neg (by simp only; linarith)] at hcontra
          exact absurd hcontra (by simp)
        · -- capacity exhausted for the day, phase drops (or the day advanced)
          push_neg at hfin
          have hremle : ¬ ((syncState wf s).rem ≤ (syncState wf s).cap) := by
            intro hle
            rw [min_eq_left hle] at hfin
            linarith
          have hmincap : min (syncState wf s).rem (syncState wf s).cap
              = (syncState wf s).cap := min_eq_right (by linarith [lt_of_not_le hremle])
          intro hcontra
          apply ih _ hInv2 hcd2B _ hcontra
          set s2 : LoopSt :=
            { syncState wf s with
              cursor := (syncState wf s).cursor.addHours
                (min (syncState wf s).rem (syncState wf s).cap / (syncState wf s).count),
              rem := (syncState wf s).rem - min (syncState wf s).rem (syncState wf s).cap,
              cap := (syncState wf s).cap - min (syncState wf s).rem (syncState wf s).cap }
            with hs2
          have hp2' := loopPhase_le_two s2
          have hp0' := loopPhase_nonneg s2
          by_cases hsame : s2.cursor.date.idx = s.cursor.date.idx
          · -- same day: the new state is synced with zero capacity, phase 0
            have hsync2 : s2.cursor.date = s2.curDate := by
              have hv2 : s2.cursor.date.Valid := hadd.1.1
              have hd2v : s2.curDate.Valid := hd1
              apply Date.idx_inj hv2 hd2v
              have : s2.curDate.idx = s.cursor.date.idx := by
                show (syncState wf s).curDate.idx = s.cursor.date.idx
                rw [hcurD]
              omega
            have hcap2 : s2.cap = 0 := by
              show (syncState wf s).cap - min (syncState wf s).rem (syncState wf s).cap = 0
              rw [hmincap]
              ring
            have hphase2 : loopPhase s2 = 0 := by
              unfold loopPhase
              rw [if_pos hsync2, if_neg]
              rw [hcap2]
              simp
            rw [hphase2]
            omega
          · have hgt2 : s.cursor.date.idx < s2.cursor.date.idx := by
              have := DateTime.addHours_date_idx_ge hc1 hq0
              rw [hcurs] at this
              have h2 : s.cursor.date.idx ≤ s2.cursor.date.idx := by
                calc s.cursor.date.idx ≤ ((syncState wf s).cursor.addHours _).date.idx := by
                      rw [← hcurs]
                      exact DateTime.addHours_date_idx_ge hc1 hq0
                  _ = s2.cursor.date.idx := rfl
              omega
            omega
    · simp

/-- Fuel monotonicity of the while loop. -/
theorem fieldLoop_mono {wf : Workforce} {tod : ℚ} :
    ∀ {f f' : ℕ} {s : LoopSt} {r : LoopRes},
      fieldLoop wf tod f s = some r → f ≤ f' → fieldLoop wf tod f' s = some r := by
  intro f
  induction f with
  | zero =>
    intro f' s r h _
    simp [fieldLoop] at h
  | succ n ih =>
    intro f' s r h hle
    obtain ⟨m, rfl⟩ : ∃ m, f' = m + 1 := ⟨f' - 1, by omega⟩
    unfold fieldLoop at h ⊢
    split at h <;> rename_i h1
    · rw [if_pos h1]
      split at h <;> rename_i h2
      · rw [if_pos h2]
        split at h <;> rename_i h3
        · rw [if_pos h3]
          exact h
        · rw [if_neg h3]
          exact ih h (by omega)
      · rw [if_neg h2]
        exact ih h (by omega)
    · rw [if_neg h1]
      exact h

theorem processField_mono {wf : Workforce} {tod : ℚ} {f f' : ℕ} {g : GroupSt}
    {row : FieldRow} {r : StepRes (GroupSt × ScheduleEntry)}
    (h : processField wf tod f g row = some r) (hle : f ≤ f') :
    processField wf tod f' g row = some r := by
  unfold processField at h ⊢
  split at h <;> rename_i heq
  · exact absurd h (by simp)
  · rw [fieldLoop_mono heq hle]
    exact h
  · rw [fieldLoop_mono heq hle]
    exact h

theorem processFields_mono {wf : Workforce} {tod : ℚ} :
    ∀ {rows : List FieldRow} {f f' : ℕ} {g : GroupSt}
      {r : StepRes (GroupSt × List ScheduleEntry)},
      processFields wf tod f g rows = some r → f ≤ f' →
      processFields wf tod f' g rows = some r := by
  intro rows
  induction rows with
  | nil =>
    intro f f' g r h _
    exact h
  | cons row rs ih =>
    intro f f' g r h hle
    unfold processFields at h ⊢
    split at h <;> rename_i heq
    · exact absurd h (by simp)
    · simp only [processField_mono heq hle]
      exact h
    · split at h <;> rename_i heq2
      · exact absurd h (by simp)
      · simp only [processField_mono heq hle, ih heq2 hle]
        exact h
      · simp only [processField_mono heq hle, ih heq2 hle]
        exact h

theorem processGroups_mono {wf : Workforce} {dict : List (String × DateTime)} :
    ∀ {gs : List (String × List FieldRow)} {f f' : ℕ} {glob : Option DateTime}
      {r : StepRes (List ScheduleEntry)},
      processGroups wf f dict glob gs = some r → f ≤ f' →
      processGroups wf f' dict glob gs = some r := by
  intro gs
  induction gs with
  | nil =>
    intro f f' glob r h _
    exact h
  | cons p rest ih =>
    obtain ⟨gname, rows⟩ := p
    intro f f' glob r h hle
    unfold processGroups at h ⊢
    split at h <;> rename_i hlook
    · exact ih h hle
    · split at h <;> rename_i heq
      · exact absurd h (by simp)
      · simp only [processFields_mono heq hle]
        exact h
      · split at h <;> rename_i heq2
        · exact absurd h (by simp)
        · simp only [processFields_mono heq hle, ih heq2 hle]
          exact h
        · simp only [processFields_mono heq hle, ih heq2 hle]
          exact h

/-- Existence of sufficient fuel for one field's while loop. -/
theorem fieldLoop_ex {wf : Workforce} {tod : ℚ} (hTod0 : 0 ≤ tod) (hTod24 : tod < 24)
    (s : LoopSt) (hInv : LInv wf s) :
    ∃ fuel r, fieldLoop wf tod fuel s = some r := by
  have hcdV : s.cursor.date.Valid := hInv.1.1
  set k : ℕ := (lastIdx wf + jumpBound wf + 1 - s.cursor.date.idx).toNat with hk
  have htop := Date.idx_iterate_next hcdV k
  set Bd : Date := next365 (Date.next^[k] s.cursor.date) with hBd
  have hBdV : Bd.Valid := next365_valid htop.1
  have hBdoy : Bd.doy = 365 := next365_doy _
  have hBgtTop : (Date.next^[k] s.cursor.date).idx < Bd.idx := next365_idx_gt htop.1
  have htopGe : lastIdx wf + jumpBound wf + 1 ≤ (Date.next^[k] s.cursor.date).idx ∨
      s.cursor.date.idx = (Date.next^[k] s.cursor.date).idx := by
    rw [htop.2, hk]
    omega
  have hBbig : lastIdx wf + jumpBound wf < Bd.idx := by
    rcases htopGe with hca | hca
    · omega
    · rw [htop.2, hk] at hca
      omega
  have hcdB : s.cursor.date.idx < Bd.idx := by
    rw [htop.2] at hBgtTop
    omega
  refine ⟨(3 * (Bd.idx - s.cursor.date.idx) + loopPhase s).toNat + 1, ?_⟩
  have := fieldLoop_no_none hTod0 hTod24 hBdV hBdoy rfl hBbig
    ((3 * (Bd.idx - s.cursor.date.idx) + loopPhase s).toNat + 1) s hInv hcdB (by omega)
  rcases hres : fieldLoop wf tod ((3 * (Bd.idx - s.cursor.date.idx) + loopPhase s).toNat + 1) s
    with _ | r
  · exact absurd hres this
  · exact ⟨r, rfl⟩

/-- Existence of sufficient fuel for one field, preserving the invariant. -/
theorem processField_ex {wf : Workforce} {tod : ℚ} (hTod0 : 0 ≤ tod) (hTod24 : tod < 24)
    (g : GroupSt) (row : FieldRow) (hInv : GInv wf g) :
    ∃ fuel r, processField wf tod fuel g row = some r := by
  obtain ⟨fuel, r, hr⟩ := fieldLoop_ex hTod0 hTod24
    ⟨g.cursor, g.curDate, g.cap, g.count, row.total_hours⟩
    ⟨hInv.1, hInv.2.1, hInv.2.2.1, hInv.2.2.2.1, hInv.2.2.2.2⟩
  refine ⟨fuel, ?_⟩
  unfold processField
  rw [hr]
  cases r with
  | abort => exact ⟨.abort [], rfl⟩
  | done s' => exact ⟨_, rfl⟩

/-- Existence of sufficient fuel for all of a group's rows. -/
theorem processFields_ex {wf : Workforce} {tod : ℚ} (hTod0 : 0 ≤ tod) (hTod24 : tod < 24) :
    ∀ (rows : List FieldRow) (g : GroupSt), GInv wf g →
      ∃ fuel res, processFields wf tod fuel g rows = some res := by
  intro rows
  induction rows with
  | nil =>
    intro g _
    exact ⟨0, .ok (g, []), rfl⟩
  | cons row rs ih =>
    intro g hInv
    obtain ⟨f1, r1, hr1⟩ := processField_ex hTod0 hTod24 g row hInv
    cases r1 with
    | abort pe =>
      refine ⟨f1, .abort [], ?_⟩
      unfold processFields
      simp only [hr1]
    | ok gr =>
      obtain ⟨g', e⟩ := gr
      have hInv' : GInv wf g' := (processField_ok_facts hTod0 hTod24 hInv hr1).1
      obtain ⟨f2, res2, hres2⟩ := ih g' hInv'
      have hr1' := processField_mono hr1 (le_max_left f1 f2)
      have hres2' := processFields_mono hres2 (le_max_right f1 f2)
      cases res2 with
      | abort pe =>
        refine ⟨max f1 f2, .abort (e :: pe), ?_⟩
        unfold processFields
        simp only [hr1', hres2']
      | ok gr2 =>
        obtain ⟨g2, es⟩ := gr2
        refine ⟨max f1 f2, .ok (g2, e :: es), ?_⟩
        unfold processFields
        simp only [hr1', hres2']

/-- Existence of sufficient fuel for the whole group pass. -/
theorem processGroups_ex {wf : Workforce} {dict : List (String × DateTime)}
    (hdict : ∀ p ∈ dict, (p.2 : DateTime).Valid) :
    ∀ (gs : List (String × List FieldRow)) (glob : Option DateTime),
      (∀ gl ∈ glob, gl.Valid) →
      ∃ fuel res, processGroups wf fuel dict glob gs = some res := by
  intro gs
  induction gs with
  | nil =>
    intro glob _
    exact ⟨0, .ok [], rfl⟩
  | cons p rest ih =>
    obtain ⟨gname, rows⟩ := p
    intro glob hglob
    cases hlook : dict.lookup gname with
    | none =>
      obtain ⟨fuel, res, hres⟩ := ih glob hglob
      refine ⟨fuel, res, ?_⟩
      unfold processGroups
      rw [hlook]
      exact hres
    | some gsd =>
      obtain ⟨k', hk'⟩ := lookup_mem hlook
      have hgsdV : gsd.Valid := hdict _ hk'
      have hc0V : (effectiveStart gsd glob).Valid := by
        cases glob with
        | none => exact hgsdV
        | some gl => exact DateTime.pymax_valid hgsdV (hglob gl rfl)
      have hInv0 : GInv wf (initGroupSt wf (effectiveStart gsd glob)) := GInv_init hc0V
      obtain ⟨f1, res1, hres1⟩ := processFields_ex hgsdV.2.1 hgsdV.2.2 rows
        (initGroupSt wf (effectiveStart gsd glob)) hInv0
      cases res1 with
      | abort pe =>
        refine ⟨f1, .abort pe, ?_⟩
        unfold processGroups
        simp only [hlook, hres1]
      | ok gr =>
        obtain ⟨g1, es⟩ := gr
        have hg1 : GInv wf g1 :=
          ((processFields_facts hgsdV.2.1 hgsdV.2.2 hres1 hInv0
            ⌊(effectiveStart gsd glob).key⌋
            (by exact Int.floor_le _)).2 g1 es rfl).1
        have hglob' : ∀ gl ∈ (some g1.cursor : Option DateTime), gl.Valid := by
          intro gl hgl
          have hgg : g1.cursor = gl := by simpa using hgl
          rw [← hgg]
          exact hg1.1
        obtain ⟨f2, res2, hres2⟩ := ih (some g1.cursor) hglob'
        have hres1' := processFields_mono hres1 (le_max_left f1 f2)
        have hres2' := processGroups_mono hres2 (le_max_right f1 f2)
        cases res2 with
        | abort pe =>
          refine ⟨max f1 f2, .abort (es ++ pe), ?_⟩
          unfold processGroups
          simp only [hlook, hres1', hres2']
        | ok es2 =>
          refine ⟨max f1 f2, .ok (es ++ es2), ?_⟩
          unfold processGroups
          simp only [hlook, hres1', hres2']

/-- For every input with a valid start argument there is enough fuel for
the scheduler to return. -/
theorem schedule_ex (table : List FieldRow) (wf : Workforce) {sd : StartArg}
    (hsd : sd.Valid) : ∃ fuel r, schedule_field_work fuel table wf sd = some r := by
  have hdict := normStartDict_valid hsd (uniqueInOrder (table.map FieldRow.group))
  obtain ⟨fuel, res, hres⟩ := processGroups_ex hdict
    ((sortStrings (uniqueInOrder (table.map FieldRow.group))).map
      (fun k => (k, table.filter (fun r => r.group == k)))) none (by simp)
  cases res with
  | abort pe =>
    refine ⟨fuel, ⟨dataFrameOfRecords pe, true⟩, ?_⟩
    unfold schedule_field_work
    rw [hres]
  | ok es =>
    refine ⟨fuel, ⟨dataFrameOfRecords es, false⟩, ?_⟩
    unfold schedule_field_work
    rw [hres]

/- ### Coverage predicate and the spec-level first-match rule (claim C7) -/

/-- A period covers a date when the date lies in the inclusive range and
its weekday name is in the period's working-day list. -/
def WorkPeriod.Covers (p : WorkPeriod) (d : Date) : Prop :=
  (p.start_date.date.idx ≤ d.idx ∧ d.idx ≤ p.end_date.date.idx) ∧
    p.work_days.contains d.dayName = true

instance (p : WorkPeriod) (d : Date) : Decidable (p.Covers d) := by
  unfold WorkPeriod.Covers; infer_instance

/-- Stated from the spec's words: the work_hours of the first WorkPeriod
whose date range and weekday set cover the date, else 0.  This is the
comparison point for the code's skip-nonpositive loop. -/
def specFirstCoveringHours : List WorkPeriod → Date → ℚ
  | [], _ => 0
  | p :: ps, d => if p.Covers d then p.work_hours else specFirstCoveringHours ps d

theorem WorkPeriod.hours_of_covers {p : WorkPeriod} {d : Date} (h : p.Covers d) :
    p.get_work_hours_for_date d = p.work_hours := by
  unfold WorkPeriod.get_work_hours_for_date
  obtain ⟨hr, hw⟩ := h
  rw [if_pos hr, if_pos hw]

theorem WorkPeriod.hours_of_not_covers {p : WorkPeriod} {d : Date} (h : ¬ p.Covers d) :
    p.get_work_hours_for_date d = 0 := by
  unfold WorkPeriod.get_work_hours_for_date
  unfold WorkPeriod.Covers at h
  push_neg at h
  by_cases hr : p.start_date.date.idx ≤ d.idx ∧ d.idx ≤ p.end_date.date.idx
  · rw [if_pos hr]
    have hw := h hr
    rw [if_neg (by simpa using hw)]
  · rw [if_neg hr]

/-- When every period has positive hours, the code's loop agrees with the
spec's plain first-covering-period rule. -/
theorem firstPositiveHours_eq_spec {ps : List WorkPeriod} {d : Date}
    (hpos : ∀ p ∈ ps, 0 < p.work_hours) :
    firstPositiveHours ps d = specFirstCoveringHours ps d := by
  induction ps with
  | nil => rfl
  | cons p ps ih =>
    have hp := hpos p (List.mem_cons_self p ps)
    have hrest : ∀ q ∈ ps, 0 < q.work_hours := fun q hq => hpos q (List.mem_cons_of_mem p hq)
    unfold firstPositiveHours specFirstCoveringHours
    by_cases hc : p.Covers d
    · rw [WorkPeriod.hours_of_covers hc, if_pos hp, if_pos hc]
    · rw [WorkPeriod.hours_of_not_covers hc, if_neg (lt_irrefl 0), if_neg hc]
      exact ih hrest

/- ### Worker count is zero exactly when total hours are zero (claim C8) -/

theorem list_sum_nonneg_eq_zero {l : List ℚ} (hnn : ∀ x ∈ l, 0 ≤ x) :
    l.sum = 0 ↔ ∀ x ∈ l, x = 0 := by
  induction l with
  | nil => simp
  | cons a t ih =>
    have ha := hnn a (List.mem_cons_self a t)
    have ht : ∀ x ∈ t, 0 ≤ x := fun x hx => hnn x (List.mem_cons_of_mem a hx)
    have htsum : 0 ≤ t.sum := List.sum_nonneg ht
    simp only [List.sum_cons, List.mem_cons]
    constructor
    · intro h
      have ha0 : a = 0 := by linarith
      have ht0 : t.sum = 0 := by linarith
      intro x hx
      rcases hx with rfl | hx
      · exact ha0
      · exact (ih ht).mp ht0 x hx
    · intro h
      have ha0 : a = 0 := h a (Or.inl rfl)
      have ht0 : t.sum = 0 := (ih ht).mpr (fun x hx => h x (Or.inr hx))
      rw [ha0, ht0, add_zero]

theorem Workforce.count_zero_iff (wf : Workforce) (d : Date) :
    wf.get_daily_worker_count d = 0 ↔ wf.get_daily_work_hours d = 0 := by
  unfold Workforce.get_daily_worker_count Workforce.get_daily_work_hours
  set l := wf.workers.map (fun w => w.get_daily_work_hours d) with hl
  have hnn : ∀ x ∈ l, 0 ≤ x := by
    intro x hx
    rw [hl] at hx
    simp only [List.mem_map] at hx
    obtain ⟨w, _, rfl⟩ := hx
    exact Worker.get_daily_work_hours_nonneg w d
  by_cases he : (l.filter (fun h => 0 < h)).isEmpty = true
  · rw [if_pos he]
    have hall : ∀ x ∈ l, x = 0 := by
      intro x hx
      by_contra hne
      have hpos : 0 < x := lt_of_le_of_ne (hnn x hx) (Ne.symm hne)
      have : x ∈ l.filter (fun h => 0 < h) := by
        rw [List.mem_filter]
        exact ⟨hx, by simpa using hpos⟩
      rw [List.isEmpty_iff] at he
      rw [he] at this
      simp at this
    constructor
    · intro _
      exact (list_sum_nonneg_eq_zero hnn).mpr hall
    · intro _
      rfl
  · rw [if_neg he]
    have hne : l.filter (fun h => 0 < h) ≠ [] := by
      intro hc; rw [hc] at he; simp at he
    obtain ⟨x, hx⟩ := List.exists_mem_of_ne_nil _ hne
    have hxl : x ∈ l := List.mem_of_mem_filter hx
    have hxpos : 0 < x := by
      have := List.of_mem_filter hx; simpa using this
    have hpos : ∀ y ∈ l.filter (fun h => 0 < h), 0 < y := by
      intro y hy
      have := List.of_mem_filter hy; simpa using this
    have hmax : 0 < pyListMax (l.filter (fun h => 0 < h)) := hpos _ (pyListMax_mem hne)
    constructor
    · intro hsum
      exfalso
      have hterms : ∀ z ∈ (l.filter (fun h => 0 < h)).map
          (fun h => h / pyListMax (l.filter (fun h => 0 < h))), 0 < z := by
        intro z hz
        simp only [List.mem_map] at hz
        obtain ⟨y, hy, rfl⟩ := hz
        exact div_pos (hpos y hy) hmax
      have hne2 : (l.filter (fun h => 0 < h)).map
          (fun h => h / pyListMax (l.filter (fun h => 0 < h))) ≠ [] := by
        simp only [ne_eq, List.map_eq_nil_iff]
        exact hne
      have := List.sum_pos _ hterms hne2
      rw [hsum] at this
      exact lt_irrefl 0 this
    · intro hsum
      exfalso
      have hx0 : x = 0 := (list_sum_nonneg_eq_zero hnn).mp hsum x hxl
      rw [hx0] at hxpos
      exact lt_irrefl 0 hxpos

/-- One-step unfolding of the while loop. -/
theorem fieldLoop_succ (wf : Workforce) (tod : ℚ) (n : ℕ) (s : LoopSt) :
    fieldLoop wf tod (n + 1) s =
    if 0 < s.rem then
      if (syncState wf s).cap ≤ 0 ∨ (syncState wf s).count = 0 then
        if (syncState wf s).curDate.next.doy = 365 then some .abort
        else
          fieldLoop wf tod n
            { syncState wf s with cursor := ⟨(syncState wf s).curDate.next, tod⟩ }
      else
        fieldLoop wf tod n
          { syncState wf s with
            cursor := (syncState wf s).cursor.addHours
              (min (syncState wf s).rem (syncState wf s).cap / (syncState wf s).count),
            rem := (syncState wf s).rem - min (syncState wf s).rem (syncState wf s).cap,
            cap := (syncState wf s).cap - min (syncState wf s).rem (syncState wf s).cap }
    else some (.done s) := rfl

/-- Under a workforce with zero capacity on every day, a field with
positive remaining hours makes the loop skip day by day and abort exactly
upon first reaching a day with day-of-year 365: with fuel below the day
distance the loop is still running, with fuel at or above it the run has
aborted. -/
theorem fieldLoop_zero_cap {wf : Workforce} {tod : ℚ} (hTod0 : 0 ≤ tod) (hTod24 : tod < 24)
    (hzero : ∀ d : Date, wf.get_daily_work_hours d = 0) :
    ∀ (fuel : ℕ) (s : LoopSt), LInv wf s → 0 < s.rem →
      (fuel < ((next365 s.cursor.date).idx - s.cursor.date.idx).toNat →
        fieldLoop wf tod fuel s = none) ∧
      (((next365 s.cursor.date).idx - s.cursor.date.idx).toNat ≤ fuel →
        fieldLoop wf tod fuel s = some .abort) := by
  intro fuel
  induction fuel with
  | zero =>
    intro s hInv _
    have hgt := next365_idx_gt hInv.1.1
    constructor
    · intro _
      rfl
    · intro hK
      exfalso
      omega
  | succ n ih =>
    intro s hInv hrem
    have hcdV : s.cursor.date.Valid := hInv.1.1
    have hgt := next365_idx_gt hcdV
    have hInv1 : LInv wf (syncState wf s) := LInv_sync hInv
    have hcurD : (syncState wf s).curDate = s.cursor.date := syncState_curDate wf s
    have hcnt : (syncState wf s).count = 0 := by
      rw [hInv1.2.2.2.2]
      exact (Workforce.count_zero_iff wf _).mpr (hzero _)
    have hnextV : s.cursor.date.next.Valid := Date.next_valid hcdV
    have hnextI : s.cursor.date.next.idx = s.cursor.date.idx + 1 := Date.idx_next hcdV
    have hstep : fieldLoop wf tod (n + 1) s =
        if (syncState wf s).curDate.next.doy = 365 then some .abort
        else fieldLoop wf tod n
          { syncState wf s with cursor := ⟨(syncState wf s).curDate.next, tod⟩ } := by
      rw [fieldLoop_succ, if_pos hrem, if_pos (Or.inr hcnt)]
    by_cases hdoy : (syncState wf s).curDate.next.doy = 365
    · rw [if_pos hdoy] at hstep
      have hdoy' : s.cursor.date.next.doy = 365 := by
        rw [hcurD] at hdoy
        exact hdoy
      have hK1 : (next365 s.cursor.date).idx = s.cursor.date.idx + 1 := by
        have hmin := next365_min hcdV hnextV hdoy' (by omega)
        omega
      constructor
      · intro hlt
        exfalso
        omega
      · intro _
        exact hstep
    · rw [if_neg hdoy] at hstep
      have hdoy' : s.cursor.date.next.doy ≠ 365 := by
        rw [hcurD] at hdoy
        exact hdoy
      have hKne : (next365 s.cursor.date).idx ≠ s.cursor.date.idx + 1 := by
        intro hc
        apply hdoy'
        have heq : next365 s.cursor.date = s.cursor.date.next :=
          Date.idx_inj (next365_valid hcdV) hnextV (by omega)
        rw [← heq, next365_doy]
      have hn365 : next365 s.cursor.date.next = next365 s.cursor.date :=
        next365_next hcdV hdoy'
      have hInv2 : LInv wf
          { syncState wf s with cursor := ⟨(syncState wf s).curDate.next, tod⟩ } :=
        ⟨⟨hcurD ▸ hnextV, hTod0, hTod24⟩, hInv1.2.1, by
          simp only
          rw [hcurD, hnextI]
          have h3 : (syncState wf s).curDate.idx = s.cursor.date.idx := by rw [hcurD]
          omega, hInv1.2.2.2.1, hInv1.2.2.2.2⟩
    -- the remaining hours are unchanged by the skip
      have hrem2 : 0 <
          ({ syncState wf s with
             cursor := ⟨(syncState wf s).curDate.next, tod⟩ } : LoopSt).rem := by
        show 0 < (syncState wf s).rem
        rw [syncState_rem]
        exact hrem
      have hih := ih _ hInv2 hrem2
      have hcursor2 : ({ syncState wf s with
          cursor := ⟨(syncState wf s).curDate.next, tod⟩ } : LoopSt).cursor.date
          = s.cursor.date.next := by
        show (syncState wf s).curDate.next = s.cursor.date.next
        rw [hcurD]
      rw [hcursor2] at hih
      rw [hn365, hnextI] at hih
      constructor
      · intro hlt
        rw [hstep]
        apply hih.1
        omega
      · intro hK
        rw [hstep]
        apply hih.2
        omega


/- ### Auxiliary facts for the collection-mutation claims -/

theorem removeFirstByName_none {name : String} : ∀ {l : List Worker},
    (∀ w ∈ l, w.name ≠ name) → removeFirstByName name l = none := by
  intro l
  induction l with
  | nil => intro _; rfl
  | cons x xs ih =>
    intro h
    unfold removeFirstByName
    rw [if_neg (h x (List.mem_cons_self _ _)), ih (fun w hw => h w (List.mem_cons_of_mem _ hw))]
    rfl

/- ### Concrete sample data for witnesses and counterexamples -/

set_option maxRecDepth 100000

/-- A mid-year 2025 date. -/
def sampleDate : Date := ⟨2025, 200⟩

/-- One worker available 8 hours a day on every weekday of 2025. -/
def samplePeriod : WorkPeriod := ⟨⟨⟨2025, 1⟩, 0⟩, ⟨⟨2025, 365⟩, 0⟩, 8, dayNames⟩

def sampleWorker : Worker := ⟨"anna", [samplePeriod], none⟩

def sampleWf : Workforce := ⟨[sampleWorker]⟩

/-- A group starting at 10:05 (five minutes past the hour). -/
def lateStart : StartArg := .byGroup [("g", .dateTime ⟨sampleDate, 10 + 5 / 60⟩)]

/-- A field needing six minutes of work. -/
def shortRow : FieldRow := ⟨"f1", 1 / 10, "r1", "g"⟩

/-- The single entry the scheduler emits for shortRow: it starts at 10:05
and ends at 10:00, an end before its own start. -/
def shortEntry : ScheduleEntry :=
  ⟨"f1", ⟨sampleDate, 121 / 12⟩, ⟨sampleDate, 10⟩, 1 / 10, "r1", "g"⟩

/-- Two variety groups with the same nominal start and one four-hour
field each. -/
def twoGroupStart : StartArg :=
  .byGroup [("a", .dateTime ⟨sampleDate, 8⟩), ("b", .dateTime ⟨sampleDate, 8⟩)]

def rowA : FieldRow := ⟨"fa", 4, "r1", "a"⟩

def rowB : FieldRow := ⟨"fb", 4, "r1", "b"⟩

def entryA : ScheduleEntry := ⟨"fa", ⟨sampleDate, 8⟩, ⟨sampleDate, 12⟩, 4, "r1", "a"⟩

def entryB : ScheduleEntry := ⟨"fb", ⟨sampleDate, 12⟩, ⟨sampleDate, 16⟩, 4, "r1", "b"⟩

/-- A loop state at 08:00 on day 200 of 2025 with one remaining hour, for
an empty workforce. -/
def zeroCapSt : LoopSt := ⟨⟨sampleDate, 8⟩, sampleDate, 0, 0, 1⟩

/-- A work period covering all of 2025 but carrying zero hours. -/
def zeroHourPeriod : WorkPeriod := ⟨⟨⟨2025, 1⟩, 0⟩, ⟨⟨2025, 365⟩, 0⟩, 0, dayNames⟩

/-- Covered by a zero-hour period first, then a five-hour period. -/
def skipWorker : Worker := ⟨"willi", [zeroHourPeriod, ⟨⟨⟨2025, 1⟩, 0⟩, ⟨⟨2025, 365⟩, 0⟩, 5, dayNames⟩], none⟩

/-- A worker with a single positive period. -/
def posWorker : Worker := ⟨"paula", [⟨⟨⟨2025, 1⟩, 0⟩, ⟨⟨2025, 365⟩, 0⟩, 5, dayNames⟩], none⟩

def workerA : Worker := ⟨"A", [], none⟩

def workerB : Worker := ⟨"B", [], none⟩

def wfAB : Workforce := ⟨[workerA, workerB]⟩

/- ### The claims -/

/-- Claim C1: in every run of schedule_field_work, each group's effective
start instant is the maximum of its nominal start and the global cursor
(the end instant reached by the previously processed groups), and
consequently no two emitted entries of different variety groups overlap in
the half-open interval from start_date to end_date: one of them ends no
later than the other starts.  The second conjunct states the max rule for
the effective start; the third states that a group's first emitted entry
starts exactly at the effective start. -/
theorem claim_C1 :
    (∀ (fuel : ℕ) (table : List FieldRow) (wf : Workforce) (sd : StartArg)
        (r : ScheduleResult), sd.Valid → schedule_field_work fuel table wf sd = some r →
      ∀ e1 ∈ r.frame.records, ∀ e2 ∈ r.frame.records, e1.group ≠ e2.group →
        e1.end_date.key ≤ e2.start_date.key ∨ e2.end_date.key ≤ e1.start_date.key) ∧
    (∀ gsd gl : DateTime, (effectiveStart gsd (some gl)).key = max gsd.key gl.key ∧
        effectiveStart gsd none = gsd) ∧
    (∀ (wf : Workforce) (fuel : ℕ) (glob : Option DateTime) (gsd : DateTime)
        (rows : List FieldRow) (res : StepRes (GroupSt × List ScheduleEntry)),
      processFields wf gsd.tod fuel (initGroupSt wf (effectiveStart gsd glob)) rows
          = some res →
      ∀ e, res.entries.head? = some e → e.start_date = effectiveStart gsd glob) := by
  refine ⟨?_, ?_, ?_⟩
  · intro fuel table wf sd r hsd h e1 h1 e2 h2 hne
    exact (schedule_facts hsd h).2 e1 h1 e2 h2 hne
  · intro gsd gl
    exact ⟨DateTime.pymax_key gsd gl, rfl⟩
  · intro wf fuel glob gsd rows res h e he
    exact processFields_head_start h e he

/-- Witness for C1 on a concrete two-group run: group b is clamped to
group a's end, and the two entries do not overlap. -/
theorem claim_C1_witness :
    entryA.end_date.key ≤ entryB.start_date.key ∨
    entryB.end_date.key ≤ entryA.start_date.key :=
  claim_C1.1 50 [rowA, rowB] sampleWf twoGroupStart
    ⟨⟨entryCols, [entryA, entryB]⟩, false⟩
    (by with_unfolding_all decide) (by with_unfolding_all decide)
    entryA (by with_unfolding_all decide) entryB (by with_unfolding_all decide)
    (by with_unfolding_all decide)

/-- Counterexample to C2 as stated: a field of six minutes scheduled for a
group starting at 10:05 is emitted with start 10:05 and end 10:00, so
end_date is strictly before start_date. -/
theorem claim_C2_counterexample :
    schedule_field_work 100 [shortRow] sampleWf lateStart =
      some ⟨⟨entryCols, [shortEntry]⟩, false⟩ ∧
    shortEntry.end_date.key < shortEntry.start_date.key := by
  with_unfolding_all decide

/-- Claim C2 (amended): for every emitted entry, end_date can precede
start_date by strictly less than half an hour (the nearest-hour rounding
loss), and whenever the entry's start lies on a whole hour - which holds
for every entry except possibly the first of a group - end_date is at or
after start_date.  The unamended claim end_date at or after start_date is
refuted by the counterexample. -/
theorem claim_C2 :
    ∀ (fuel : ℕ) (table : List FieldRow) (wf : Workforce) (sd : StartArg)
      (r : ScheduleResult), sd.Valid → schedule_field_work fuel table wf sd = some r →
      ∀ e ∈ r.frame.records,
        e.start_date.key < e.end_date.key + 1 / 2 ∧
        (e.start_date.Whole → e.start_date.key ≤ e.end_date.key) := by
  intro fuel table wf sd r hsd h e he
  exact (schedule_facts hsd h).1 e he

/-- Witness for C2 on the concrete run of the counterexample input. -/
theorem claim_C2_witness :
    shortEntry.start_date.key < shortEntry.end_date.key + 1 / 2 ∧
    (shortEntry.start_date.Whole → shortEntry.start_date.key ≤ shortEntry.end_date.key) :=
  claim_C2 100 [shortRow] sampleWf lateStart ⟨⟨entryCols, [shortEntry]⟩, false⟩
    (by with_unfolding_all decide) (by with_unfolding_all decide)
    shortEntry (by with_unfolding_all decide)

/-- Claim C3: the claim (and the spec's rounding law) says a cursor at
HH:29:59 rounds down to HH:00 and HH:30:00 rounds up.  The code's
condition also rounds up when minute equals 29 and second is at least 30,
so 10:29:59 rounds up to 11:00, contradicting the stated law; this
contradicts the function's own docstring (round to the nearest hour),
hence a code bug.  The theorem evaluates the embedded function at the
failing input and at the agreeing input 10:30:00. -/
theorem claim_C3_bug :
    round_to_nearest_hour ⟨⟨2025, 150⟩, 10 + 29 / 60 + 59 / 3600⟩ = ⟨⟨2025, 150⟩, 11⟩ ∧
    round_to_nearest_hour ⟨⟨2025, 150⟩, 10 + 30 / 60⟩ = ⟨⟨2025, 150⟩, 11⟩ ∧
    round_to_nearest_hour ⟨⟨2025, 150⟩, 10 + 29 / 60 + 29 / 3600⟩ = ⟨⟨2025, 150⟩, 10⟩ ∧
    (⟨⟨2025, 150⟩, 11⟩ : DateTime) ≠ ⟨⟨2025, 150⟩, 10⟩ := by
  with_unfolding_all decide

/-- Claim C4: the claim says a single datetime start_date is applied to
every group unchanged, keeping its time-of-day.  In the code the
single-value branch tests isinstance(start_date, date), which is also true
of datetimes, and datetime.combine drops the time component, so a single
datetime at 14:30 is truncated to 08:00; the dict branch preserves
datetimes via its extra not-isinstance-datetime guard, showing the intent,
hence a code bug.  The theorem evaluates the embedded normalization at the
failing input and at the agreeing bare-date input. -/
theorem claim_C4_bug :
    normStartDict (.single (.dateTime ⟨⟨2025, 244⟩, 14 + 1 / 2⟩)) ["g"]
      = [("g", ⟨⟨2025, 244⟩, 8⟩)] ∧
    normStartDict (.single (.pureDate ⟨2025, 244⟩)) ["g", "h"]
      = [("g", ⟨⟨2025, 244⟩, 8⟩), ("h", ⟨⟨2025, 244⟩, 8⟩)] ∧
    normStartDict (.byGroup [("g", .dateTime ⟨⟨2025, 244⟩, 14 + 1 / 2⟩)]) ["g"]
      = [("g", ⟨⟨2025, 244⟩, 14 + 1 / 2⟩)] ∧
    (⟨⟨2025, 244⟩, 8⟩ : DateTime) ≠ ⟨⟨2025, 244⟩, 14 + 1 / 2⟩ := by
  with_unfolding_all decide

/-- Counterexample to C5 as stated: a zero-row input returns normally with
an empty frame, but the frame carries no columns at all, because a pandas
DataFrame built from an empty record list has no columns. -/
theorem claim_C5_counterexample :
    schedule_field_work 3 [] (⟨[]⟩ : Workforce) (.single (.pureDate ⟨2025, 1⟩))
      = some ⟨⟨[], []⟩, false⟩ ∧
    ([] : List String) ≠ entryCols := by
  with_unfolding_all decide

/-- Claim C5 (amended): calling schedule_field_work on a zero-row field
table raises no error and returns an empty output frame, but that frame
has no columns (not the six output columns the claim names): the group
loop runs zero times and the empty record list yields a column-less
frame. -/
theorem claim_C5 :
    ∀ (fuel : ℕ) (wf : Workforce) (sd : StartArg),
      schedule_field_work fuel [] wf sd = some ⟨⟨[], []⟩, false⟩ := by
  intro fuel wf sd
  rfl

/-- Witness for C5 at a concrete workforce and start argument. -/
theorem claim_C5_witness :
    schedule_field_work 7 [] sampleWf lateStart = some ⟨⟨[], []⟩, false⟩ :=
  claim_C5 7 sampleWf lateStart

/-- Claim C6: schedule_field_work terminates for every input (there is
enough fuel for the embedded loop to return), and when the workforce has
zero daily capacity on every day, a field with positive remaining hours
makes the inner loop advance day by day and abort exactly upon first
reaching day-of-year 365: with fewer iterations than the day distance to
that day the loop is still running, at or beyond it the loop has aborted,
returning the entries scheduled so far with a warning. -/
theorem claim_C6 :
    (∀ (table : List FieldRow) (wf : Workforce) (sd : StartArg), sd.Valid →
      ∃ fuel r, schedule_field_work fuel table wf sd = some r) ∧
    (∀ (wf : Workforce) (tod : ℚ), 0 ≤ tod → tod < 24 →
      (∀ d : Date, wf.get_daily_work_hours d = 0) →
      ∀ (fuel : ℕ) (s : LoopSt), LInv wf s → 0 < s.rem →
        (fuel < ((next365 s.cursor.date).idx - s.cursor.date.idx).toNat →
          fieldLoop wf tod fuel s = none) ∧
        (((next365 s.cursor.date).idx - s.cursor.date.idx).toNat ≤ fuel →
          fieldLoop wf tod fuel s = some .abort)) := by
  constructor
  · intro table wf sd hsd
    exact schedule_ex table wf hsd
  · intro wf tod h0 h24 hzero fuel s hInv hrem
    exact fieldLoop_zero_cap h0 h24 hzero fuel s hInv hrem

/-- Witness for C6: the scheduler returns on a concrete input, and with an
empty workforce the loop from day 200 of 2025 aborts at fuel 165, the day
distance to day-of-year 365. -/
theorem claim_C6_witness :
    (∃ fuel r, schedule_field_work fuel [shortRow] sampleWf lateStart = some r) ∧
    fieldLoop (⟨[]⟩ : Workforce) 8 165 zeroCapSt = some .abort :=
  ⟨claim_C6.1 [shortRow] sampleWf lateStart (by with_unfolding_all decide),
   (claim_C6.2 ⟨[]⟩ 8 (by norm_num) (by norm_num) (fun _ => rfl) 165 zeroCapSt
      (by with_unfolding_all decide) (by with_unfolding_all decide)).2
      (by with_unfolding_all decide)⟩

/-- Counterexample to C7 as stated: a worker whose first covering period
carries zero hours: the spec rule (hours of the first covering period)
gives 0, but the code skips non-positive periods and returns 5 from the
second one. -/
theorem claim_C7_counterexample :
    skipWorker.get_daily_work_hours ⟨2025, 100⟩ = 5 ∧
    specFirstCoveringHours skipWorker.work_periods ⟨2025, 100⟩ = 0 ∧
    (5 : ℚ) ≠ 0 := by
  with_unfolding_all decide

/-- Claim C7 (amended): get_daily_work_hours returns the work_hours of the
first period whose range and weekday set cover the date and whose hours
are positive, else 0; equivalently, when every period of the worker has
positive work_hours it agrees with the spec's plain first-covering-period
rule.  Unconditionally the claim fails, since the code skips covering
periods with non-positive hours (see the counterexample). -/
theorem claim_C7 :
    ∀ (w : Worker) (d : Date), (∀ p ∈ w.work_periods, 0 < p.work_hours) →
      w.get_daily_work_hours d = specFirstCoveringHours w.work_periods d :=
  fun _ _ h => firstPositiveHours_eq_spec h

/-- Witness for C7 on a worker with one positive period. -/
theorem claim_C7_witness :
    posWorker.get_daily_work_hours ⟨2025, 100⟩
      = specFirstCoveringHours posWorker.work_periods ⟨2025, 100⟩ :=
  claim_C7 posWorker ⟨2025, 100⟩ (by with_unfolding_all decide)

/-- Claim C8: the effective worker count of a date is zero exactly when
the total daily work hours of that date are zero. -/
theorem claim_C8 :
    ∀ (wf : Workforce) (d : Date),
      wf.get_daily_worker_count d = 0 ↔ wf.get_daily_work_hours d = 0 :=
  Workforce.count_zero_iff

/-- Witness for C8 at a concrete workforce and date. -/
theorem claim_C8_witness :
    sampleWf.get_daily_worker_count sampleDate = 0 ↔
    sampleWf.get_daily_work_hours sampleDate = 0 :=
  claim_C8 sampleWf sampleDate

/-- Claim C9: name uniqueness is enforced only at insertion: add_worker
raises a naming-conflict error when the name exists (and, raising before
any mutation, leaves the workforce unchanged), while update_worker of
worker A to a worker named B succeeds and leaves two workers named B in
the workforce. -/
theorem claim_C9 :
    (∀ (wf : Workforce) (w : Worker),
        (wf.workers.map Worker.name).contains w.name = true →
        wf.add_worker w = .error "worker already exists") ∧
    (wfAB.update_worker "A" workerB = .ok ⟨[workerB, workerB]⟩ ∧
      (⟨[workerB, workerB]⟩ : Workforce).workers.map Worker.name = ["B", "B"]) := by
  refine ⟨?_, ?_, rfl⟩
  · intro wf w h
    unfold Workforce.add_worker
    rw [if_pos h]
  · rfl

/-- Witness for C9: adding a worker named A to a workforce already
containing A errors out. -/
theorem claim_C9_witness :
    wfAB.add_worker workerA = .error "worker already exists" :=
  claim_C9.1 wfAB workerA (by with_unfolding_all decide)

/-- Claim C10: remove_work_period with an index outside the valid range is
a silent no-op returning the worker unchanged, whereas the name-based
Workforce.remove_worker raises on an unknown name. -/
theorem claim_C10 :
    (∀ (w : Worker) (i : ℤ),
        i < 0 ∨ (w.work_periods.length : ℤ) ≤ i → w.remove_work_period i = w) ∧
    (∀ (wf : Workforce) (name : String), (∀ w ∈ wf.workers, w.name ≠ name) →
        wf.remove_worker name = .error "worker not found") := by
  constructor
  · intro w i hi
    have hcond : ¬ (0 ≤ i ∧ i < (w.work_periods.length : ℤ)) := by omega
    unfold Worker.remove_work_period
    rw [if_neg hcond]
  · intro wf name h
    unfold Workforce.remove_worker
    rw [removeFirstByName_none h]

/-- Witness for C10 at concrete out-of-range indices and an unknown
name. -/
theorem claim_C10_witness :
    sampleWorker.remove_work_period (-1) = sampleWorker ∧
    sampleWorker.remove_work_period 5 = sampleWorker ∧
    sampleWf.remove_worker "zz" = .error "worker not found" :=
  ⟨claim_C10.1 sampleWorker (-1) (by with_unfolding_all decide),
   claim_C10.1 sampleWorker 5 (by with_unfolding_all decide),
   claim_C10.2 sampleWf "zz" (by with_unfolding_all decide)⟩

end WFP
